import Mathlib

/-!
# gonec: the tree walker `ast.Walk` and the `ast.Inspect` adapter

A shallow embedding of `.old/gonecparser/ast/walk.go`.

* `Node` is the family of concrete node kinds the type switch of `Walk`
  distinguishes, with the fields `Walk` reads.
* A Go `Visitor` is an object whose `Visit` method may have side effects.
  Here the visitors of a program are the values of a type `V`, the store
  they act on is a value of a type `σ`, and the method is a function
  `Visit : V → Option Node → σ → Option V × Option Err × σ`
  (receiver, argument, store) ↦ (continuation, error, new store).
  A nil node, a nil visitor and a nil error are `none`.
* `Walk` returns the error handed to the caller together with the final store.
* The sequence of `Visit` calls made by a walk is observed by running the
  walk with the recording visitor `logged Visit`.
-/

namespace Gonec

/-- Go error values, identified by their message. -/
abbrev Err := String

/-- Modelled from the spec: the node type declarations of `ast.go` are not part
of the sources at hand.  One constructor per concrete kind named in the type
switch of `Walk`, carrying the child fields that `Walk` reads, in the order
in which the switch reads them.  Fields which `Walk` guards with `!= nil` are
`Option`s, slices are lists (a nil slice is the empty list), `Package.Files`
is the ordered collection of files of the data model.  `Ident` and `BasicLit`
keep their text so that distinct leaves can be told apart.  The constructor
`other` stands for a node of any concrete kind that has no case in the
switch; `typeName` is what the verb `%T` prints for it. -/
inductive Node where
  | Field (Names : List Node) (Typ : Node) (Tag : Option Node)
  | FieldList (Lst : List Node)
  | BadExpr
  | Ident (Name : String)
  | BasicLit (Value : String)
  | FuncLit (Typ : Node) (Body : Node)
  | CompositeLit (Elts : List Node)
  | ParenExpr (X : Node)
  | TernaryExpr (Cond : Node) (X : Node) (Y : Node)
  | SelectorExpr (X : Node) (Sel : Node)
  | IndexExpr (X : Node) (Index : Node)
  | SliceExpr (X : Node) (Low : Option Node) (High : Option Node)
  | TypeAssertExpr (X : Node) (Typ : Option Node)
  | CallExpr (Fun : Node) (Args : List Node)
  | UnaryExpr (X : Node)
  | BinaryExpr (X : Node) (Y : Node)
  | KeyValueExpr (Key : Node) (Value : Node)
  | FuncType (Params : Option Node)
  | BadStmt
  | DeclStmt (Decl : Node)
  | EmptyStmt
  | LabeledStmt (Label : Node) (Stmt : Node)
  | ExprStmt (X : Node)
  | IncDecStmt (X : Node)
  | AssignStmt (Lhs : List Node) (Rhs : List Node)
  | GoStmt (Call : Node)
  | DeferStmt (Call : Node)
  | ReturnStmt (Results : List Node)
  | BranchStmt (Label : Option Node)
  | BlockStmt (Lst : List Node)
  | IfStmt (Cond : Node) (Body : Node) (ElsIf : List Node) (Else : Option Node)
  | TryStmt (Body : Node) (Except : Option Node)
  | ForStmt (Cond : Option Node) (Body : Node)
  | WhileStmt (Cond : Option Node) (Body : Node)
  | ImportSpec (Name : Option Node) (Path : Node)
  | ValueSpec (Names : List Node) (Typ : Option Node) (Values : List Node)
  | BadDecl
  | GenDecl (Specs : List Node)
  | FuncDecl (Name : Node) (Typ : Node) (Body : Option Node)
  | File (Name : Node) (Decls : List Node)
  | Package (Files : List Node)
  | other (typeName : String)

/-- The error built by `fmt.Errorf("ast.Walk: unexpected node type %T", n)`. -/
def errUnexpected (typeName : String) : Err :=
  "ast.Walk: unexpected node type " ++ typeName

/-- The statement pair `err = e; if err != nil return err`, followed by the
rest `k` of the case.  An error left in `err` at the end of a case is
returned by the check after the switch, so it is passed on in the same way. -/
def seqErr {σ : Type} (r : Option Err × σ) (k : σ → Option Err × σ) : Option Err × σ :=
  match r with
  | (some e, s) => (some e, s)
  | (none, s) => k s

section Walker

variable {V σ : Type} (Visit : V → Option Node → σ → Option V × Option Err × σ)

/-- The entry of `Walk`: `v, err = v.Visit(node); if err != nil return err;
if v == nil return nil`, followed by the rest `k` of the function, run with the
visitor that `Visit` returned. -/
def enter (r : Option V × Option Err × σ) (k : V → σ → Option Err × σ) : Option Err × σ :=
  match r with
  | (_, some err, s) => (some err, s)
  | (none, none, s) => (none, s)
  | (some v, none, s) => k v s

/-- The exit of `Walk`, reached with the value `r` of `err` after the switch:
`if err != nil return err; _, err = v.Visit(nil); return err`. -/
def leave (v : V) (r : Option Err × σ) : Option Err × σ :=
  match r with
  | (some err, s) => (some err, s)
  | (none, s) => ((Visit v none s).2.1, (Visit v none s).2.2)

mutual
/-- The function `Walk(v Visitor, node Node) error`. -/
def Walk (v : V) (node : Node) (s : σ) : Option Err × σ :=
  enter (Visit v (some node) s) fun v s =>
    leave Visit v <|
      match node with
      | .Field Names Typ Tag =>
          let s := walkIdentList v Names s
          seqErr (Walk v Typ s) fun s =>
          walkOpt v Tag s
      | .FieldList Lst => walkLoop v Lst s
      | .BadExpr => (none, s)
      | .Ident _ => (none, s)
      | .BasicLit _ => (none, s)
      | .FuncLit Typ Body =>
          seqErr (Walk v Typ s) fun s =>
          Walk v Body s
      | .CompositeLit Elts => (none, walkExprList v Elts s)
      | .ParenExpr X => Walk v X s
      | .TernaryExpr Cond X Y =>
          seqErr (Walk v Cond s) fun s =>
          seqErr (Walk v X s) fun s =>
          Walk v Y s
      | .SelectorExpr X Sel =>
          seqErr (Walk v X s) fun s =>
          Walk v Sel s
      | .IndexExpr X Index =>
          seqErr (Walk v X s) fun s =>
          Walk v Index s
      | .SliceExpr X Low High =>
          seqErr (Walk v X s) fun s =>
          seqErr (walkOpt v Low s) fun s =>
          walkOpt v High s
      | .TypeAssertExpr X Typ =>
          seqErr (Walk v X s) fun s =>
          walkOpt v Typ s
      | .CallExpr Fun Args =>
          seqErr (Walk v Fun s) fun s =>
          (none, walkExprList v Args s)
      | .UnaryExpr X => Walk v X s
      | .BinaryExpr X Y =>
          seqErr (Walk v X s) fun s =>
          Walk v Y s
      | .KeyValueExpr Key Value =>
          seqErr (Walk v Key s) fun s =>
          Walk v Value s
      | .FuncType Params =>
          walkOpt v Params s
      | .BadStmt => (none, s)
      | .DeclStmt Decl => Walk v Decl s
      | .EmptyStmt => (none, s)
      | .LabeledStmt Label Stmt =>
          seqErr (Walk v Label s) fun s =>
          Walk v Stmt s
      | .ExprStmt X => Walk v X s
      | .IncDecStmt X => Walk v X s
      | .AssignStmt Lhs Rhs =>
          let s := walkExprList v Lhs s
          (none, walkExprList v Rhs s)
      | .GoStmt Call => Walk v Call s
      | .DeferStmt Call => Walk v Call s
      | .ReturnStmt Results => (none, walkExprList v Results s)
      | .BranchStmt Label =>
          walkOpt v Label s
      | .BlockStmt Lst => (none, walkStmtList v Lst s)
      | .IfStmt Cond Body ElsIf Else =>
          seqErr (Walk v Cond s) fun s =>
          seqErr (Walk v Body s) fun s =>
          -- `if n.ElsIf != nil`: walking the nil slice makes no call
          let s := walkStmtList v ElsIf s
          walkOpt v Else s
      | .TryStmt Body Except =>
          seqErr (Walk v Body s) fun s =>
          walkOpt v Except s
      | .ForStmt Cond Body =>
          seqErr (walkOpt v Cond s) fun s =>
          Walk v Body s
      | .WhileStmt Cond Body =>
          seqErr (walkOpt v Cond s) fun s =>
          Walk v Body s
      | .ImportSpec Name Path =>
          seqErr (walkOpt v Name s) fun s =>
          Walk v Path s
      | .ValueSpec Names Typ Values =>
          let s := walkIdentList v Names s
          seqErr (walkOpt v Typ s) fun s =>
          (none, walkExprList v Values s)
      | .BadDecl => (none, s)
      | .GenDecl Specs => walkLoop v Specs s
      | .FuncDecl Name Typ Body =>
          seqErr (Walk v Name s) fun s =>
          seqErr (Walk v Typ s) fun s =>
          walkOpt v Body s
      | .File Name Decls =>
          seqErr (Walk v Name s) fun s =>
          (none, walkDeclList v Decls s)
      | .Package Files => walkLoop v Files s
      | .other typeName => (some (errUnexpected typeName), s)
termination_by structural node
/-- The helper `walkIdentList`: the result of each `Walk` is dropped. -/
def walkIdentList (v : V) (list : List Node) (s : σ) : σ :=
  match list with
  | [] => s
  | x :: rest => walkIdentList v rest (Walk v x s).2
termination_by structural list
/-- The helper `walkExprList`: the result of each `Walk` is dropped. -/
def walkExprList (v : V) (list : List Node) (s : σ) : σ :=
  match list with
  | [] => s
  | x :: rest => walkExprList v rest (Walk v x s).2
termination_by structural list
/-- The helper `walkStmtList`: the result of each `Walk` is dropped. -/
def walkStmtList (v : V) (list : List Node) (s : σ) : σ :=
  match list with
  | [] => s
  | x :: rest => walkStmtList v rest (Walk v x s).2
termination_by structural list
/-- The helper `walkDeclList`: the result of each `Walk` is dropped. -/
def walkDeclList (v : V) (list : List Node) (s : σ) : σ :=
  match list with
  | [] => s
  | x :: rest => walkDeclList v rest (Walk v x s).2
termination_by structural list
/-- The guarded walk of an optional child `x`:
`if x != nil then err = Walk(v, x)`; `err` is nil when the guard is reached. -/
def walkOpt (v : V) (x : Option Node) (s : σ) : Option Err × σ :=
  match x with
  | some n => Walk v n s
  | none => (none, s)
termination_by structural x
/-- The loop `for _, f := range list { err = Walk(v, f); if err != nil return err }`
written out in the cases `*FieldList`, `*GenDecl` and `*Package`. -/
def walkLoop (v : V) (list : List Node) (s : σ) : Option Err × σ :=
  match list with
  | [] => (none, s)
  | x :: rest => seqErr (Walk v x s) fun s => walkLoop v rest s
termination_by structural list
end

end Walker

/-- The method `inspector.Visit`; the inspector `f` is its own continuation. -/
def inspectorVisit {σ : Type} (f : Option Node → σ → Bool × Option Err × σ)
    (node : Option Node) (s : σ) :
    Option (Option Node → σ → Bool × Option Err × σ) × Option Err × σ :=
  match f node s with
  | (_, some err, s) => (none, some err, s)
  | (true, none, s) => (some f, none, s)
  | (false, none, s) => (none, none, s)

/-- The function `Inspect(node, f)`. -/
def Inspect {σ : Type} (node : Node) (f : Option Node → σ → Bool × Option Err × σ) (s : σ) :
    Option Err × σ :=
  Walk inspectorVisit f node s

/-! ## Observing the calls of a walk -/

/-- One call `recv.Visit(arg)` together with what it returned. -/
structure Call (V : Type) where
  recv : V
  arg : Option Node
  w : Option V
  err : Option Err

/-- The visitor `Visit` with a recorder in front of it: every call is appended to
a log kept next to the store; results and store are those of `Visit`. -/
def logged {V σ : Type} (Visit : V → Option Node → σ → Option V × Option Err × σ)
    (v : V) (arg : Option Node) (st : σ × List (Call V)) :
    Option V × Option Err × (σ × List (Call V)) :=
  ((Visit v arg st.1).1, (Visit v arg st.1).2.1,
    ((Visit v arg st.1).2.2, st.2 ++ [⟨v, arg, (Visit v arg st.1).1, (Visit v arg st.1).2.1⟩]))

/-- The call trace of `Walk(v, node)` started in store `s`. -/
def trace {V σ : Type} (Visit : V → Option Node → σ → Option V × Option Err × σ)
    (v : V) (node : Node) (s : σ) : List (Call V) :=
  (Walk (logged Visit) v node (s, [])).2.2

/-- The predicate `f` with a recorder in front of it: every argument `f` is called
on is appended to a log kept next to the store. -/
def loggedPred {σ : Type} (f : Option Node → σ → Bool × Option Err × σ)
    (arg : Option Node) (st : σ × List (Option Node)) :
    Bool × Option Err × (σ × List (Option Node)) :=
  ((f arg st.1).1, (f arg st.1).2.1, ((f arg st.1).2.2, st.2 ++ [arg]))

/-- The arguments on which `Inspect(node, f)`, started in store `s`, calls `f`. -/
def inspectTrace {σ : Type} (node : Node) (f : Option Node → σ → Bool × Option Err × σ)
    (s : σ) : List (Option Node) :=
  (Inspect node (loggedPred f) (s, [])).2.2

/-! ## The reference traversal of the specification -/

/-- The children of a node, kind by kind, as the table of section 4.2 of the
specification lists them: in the listed order, an absent optional child
left out, a list child element by element. -/
def children : Node → List Node
  | .Field Names Typ Tag => Names ++ [Typ] ++ Tag.toList
  | .FieldList Lst => Lst
  | .BadExpr => []
  | .Ident _ => []
  | .BasicLit _ => []
  | .FuncLit Typ Body => [Typ, Body]
  | .CompositeLit Elts => Elts
  | .ParenExpr X => [X]
  | .TernaryExpr Cond X Y => [Cond, X, Y]
  | .SelectorExpr X Sel => [X, Sel]
  | .IndexExpr X Index => [X, Index]
  | .SliceExpr X Low High => [X] ++ Low.toList ++ High.toList
  | .TypeAssertExpr X Typ => [X] ++ Typ.toList
  | .CallExpr Fun Args => [Fun] ++ Args
  | .UnaryExpr X => [X]
  | .BinaryExpr X Y => [X, Y]
  | .KeyValueExpr Key Value => [Key, Value]
  | .FuncType Params => Params.toList
  | .BadStmt => []
  | .DeclStmt Decl => [Decl]
  | .EmptyStmt => []
  | .LabeledStmt Label Stmt => [Label, Stmt]
  | .ExprStmt X => [X]
  | .IncDecStmt X => [X]
  | .AssignStmt Lhs Rhs => Lhs ++ Rhs
  | .GoStmt Call => [Call]
  | .DeferStmt Call => [Call]
  | .ReturnStmt Results => Results
  | .BranchStmt Label => Label.toList
  | .BlockStmt Lst => Lst
  | .IfStmt Cond Body ElsIf Else => [Cond, Body] ++ ElsIf ++ Else.toList
  | .TryStmt Body Except => [Body] ++ Except.toList
  | .ForStmt Cond Body => Cond.toList ++ [Body]
  | .WhileStmt Cond Body => Cond.toList ++ [Body]
  | .ImportSpec Name Path => Name.toList ++ [Path]
  | .ValueSpec Names Typ Values => Names ++ Typ.toList ++ Values
  | .BadDecl => []
  | .GenDecl Specs => Specs
  | .FuncDecl Name Typ Body => [Name, Typ] ++ Body.toList
  | .File Name Decls => [Name] ++ Decls
  | .Package Files => Files
  | .other _ => []

/-- The error of the `default` case of the type switch: `none` for a kind that
has a case of its own. -/
def unknownKind : Node → Option Err
  | .other typeName => some (errUnexpected typeName)
  | _ => none

/-- A tree built only of kinds that have a case in the type switch. -/
inductive Recognized : Node → Prop
  | mk (n : Node) (hk : unknownKind n = none) (hc : ∀ c ∈ children n, Recognized c) :
      Recognized n

/-- Bottom-up recursion along `children`: the value at a node is `f` of the
node and of the values at its children. -/
def Node.fold {β : Type} (f : Node → List β → β) (n : Node) : β :=
  f n ((children n).attach.map fun c => Node.fold f c.1)
termination_by sizeOf n
decreasing_by
  have hc := c.2
  generalize c.1 = x at hc
  cases n <;> simp only [children, List.mem_append, List.mem_cons, List.mem_singleton,
    List.not_mem_nil, Option.mem_toList, Option.mem_def, or_false, false_or] at hc
  all_goals try casesm* _ ∨ _
  all_goals first
    | (have hlt := List.sizeOf_lt_of_mem ‹_ ∈ _›
       simp
       omega)
    | (subst_vars
       simp
       try omega)

/-- The nodes of a tree in pre-order: the root, then the nodes of each child. -/
def subnodes (n : Node) : List Node :=
  Node.fold (fun n below => n :: below.flatten) n

/-- The reference sequence of `Visit` arguments of a full walk: the node, then
the reference sequences of its children, then the nil of the close notification. -/
def refArgs (n : Node) : List (Option Node) :=
  Node.fold (fun n below => some n :: below.flatten ++ [none]) n

/-- The reference trace for a visitor `v` that always returns itself and no error. -/
def refTrace {V : Type} (v : V) (n : Node) : List (Call V) :=
  (refArgs n).map fun a => ⟨v, a, some v, none⟩

/-! ## One level of `Walk`, slot by slot -/

section Slots

variable {V σ : Type} (Visit : V → Option Node → σ → Option V × Option Err × σ)

/-- The type switch of `Walk` as a function of its own, with the recursive calls
left as calls of `Walk`: `Walk` is `enter`, then this switch, then `leave`. -/
def walkSwitch (v : V) (node : Node) (s : σ) : Option Err × σ :=
  match node with
  | .Field Names Typ Tag =>
      let s := walkIdentList Visit v Names s
      seqErr (Walk Visit v Typ s) fun s =>
      walkOpt Visit v Tag s
  | .FieldList Lst => walkLoop Visit v Lst s
  | .BadExpr => (none, s)
  | .Ident _ => (none, s)
  | .BasicLit _ => (none, s)
  | .FuncLit Typ Body =>
      seqErr (Walk Visit v Typ s) fun s =>
      Walk Visit v Body s
  | .CompositeLit Elts => (none, walkExprList Visit v Elts s)
  | .ParenExpr X => Walk Visit v X s
  | .TernaryExpr Cond X Y =>
      seqErr (Walk Visit v Cond s) fun s =>
      seqErr (Walk Visit v X s) fun s =>
      Walk Visit v Y s
  | .SelectorExpr X Sel =>
      seqErr (Walk Visit v X s) fun s =>
      Walk Visit v Sel s
  | .IndexExpr X Index =>
      seqErr (Walk Visit v X s) fun s =>
      Walk Visit v Index s
  | .SliceExpr X Low High =>
      seqErr (Walk Visit v X s) fun s =>
      seqErr (walkOpt Visit v Low s) fun s =>
      walkOpt Visit v High s
  | .TypeAssertExpr X Typ =>
      seqErr (Walk Visit v X s) fun s =>
      walkOpt Visit v Typ s
  | .CallExpr Fun Args =>
      seqErr (Walk Visit v Fun s) fun s =>
      (none, walkExprList Visit v Args s)
  | .UnaryExpr X => Walk Visit v X s
  | .BinaryExpr X Y =>
      seqErr (Walk Visit v X s) fun s =>
      Walk Visit v Y s
  | .KeyValueExpr Key Value =>
      seqErr (Walk Visit v Key s) fun s =>
      Walk Visit v Value s
  | .FuncType Params =>
      walkOpt Visit v Params s
  | .BadStmt => (none, s)
  | .DeclStmt Decl => Walk Visit v Decl s
  | .EmptyStmt => (none, s)
  | .LabeledStmt Label Stmt =>
      seqErr (Walk Visit v Label s) fun s =>
      Walk Visit v Stmt s
  | .ExprStmt X => Walk Visit v X s
  | .IncDecStmt X => Walk Visit v X s
  | .AssignStmt Lhs Rhs =>
      let s := walkExprList Visit v Lhs s
      (none, walkExprList Visit v Rhs s)
  | .GoStmt Call => Walk Visit v Call s
  | .DeferStmt Call => Walk Visit v Call s
  | .ReturnStmt Results => (none, walkExprList Visit v Results s)
  | .BranchStmt Label =>
      walkOpt Visit v Label s
  | .BlockStmt Lst => (none, walkStmtList Visit v Lst s)
  | .IfStmt Cond Body ElsIf Else =>
      seqErr (Walk Visit v Cond s) fun s =>
      seqErr (Walk Visit v Body s) fun s =>
      -- `if n.ElsIf != nil`: walking the nil slice makes no call
      let s := walkStmtList Visit v ElsIf s
      walkOpt Visit v Else s
  | .TryStmt Body Except =>
      seqErr (Walk Visit v Body s) fun s =>
      walkOpt Visit v Except s
  | .ForStmt Cond Body =>
      seqErr (walkOpt Visit v Cond s) fun s =>
      Walk Visit v Body s
  | .WhileStmt Cond Body =>
      seqErr (walkOpt Visit v Cond s) fun s =>
      Walk Visit v Body s
  | .ImportSpec Name Path =>
      seqErr (walkOpt Visit v Name s) fun s =>
      Walk Visit v Path s
  | .ValueSpec Names Typ Values =>
      let s := walkIdentList Visit v Names s
      seqErr (walkOpt Visit v Typ s) fun s =>
      (none, walkExprList Visit v Values s)
  | .BadDecl => (none, s)
  | .GenDecl Specs => walkLoop Visit v Specs s
  | .FuncDecl Name Typ Body =>
      seqErr (Walk Visit v Name s) fun s =>
      seqErr (Walk Visit v Typ s) fun s =>
      walkOpt Visit v Body s
  | .File Name Decls =>
      seqErr (Walk Visit v Name s) fun s =>
      (none, walkDeclList Visit v Decls s)
  | .Package Files => walkLoop Visit v Files s
  | .other typeName => (some (errUnexpected typeName), s)

/-- Walking the nodes of `list` one after the other with visitor `w`, whatever
the single walks return. -/
def walkEach (w : V) (list : List Node) (s : σ) : σ :=
  list.foldl (fun s c => (Walk Visit w c s).2) s

/-- The traces of the walks made by `walkEach`, one after the other. -/
def traceEach (w : V) : List Node → σ → List (Call V)
  | [], _ => []
  | c :: rest, s => trace Visit w c s ++ traceEach w rest (Walk Visit w c s).2

/-- The child slots that the case of a node walks, in order; the flag tells whether
the result of the walk is checked (`true`) or dropped by a list helper (`false`). -/
def slots : Node → List (Bool × Node)
  | .Field Names Typ Tag => Names.map (false, ·) ++ [(true, Typ)] ++ Tag.toList.map (true, ·)
  | .FieldList Lst => Lst.map (true, ·)
  | .BadExpr => []
  | .Ident _ => []
  | .BasicLit _ => []
  | .FuncLit Typ Body => [(true, Typ), (true, Body)]
  | .CompositeLit Elts => Elts.map (false, ·)
  | .ParenExpr X => [(true, X)]
  | .TernaryExpr Cond X Y => [(true, Cond), (true, X), (true, Y)]
  | .SelectorExpr X Sel => [(true, X), (true, Sel)]
  | .IndexExpr X Index => [(true, X), (true, Index)]
  | .SliceExpr X Low High => [(true, X)] ++ Low.toList.map (true, ·) ++ High.toList.map (true, ·)
  | .TypeAssertExpr X Typ => [(true, X)] ++ Typ.toList.map (true, ·)
  | .CallExpr Fun Args => [(true, Fun)] ++ Args.map (false, ·)
  | .UnaryExpr X => [(true, X)]
  | .BinaryExpr X Y => [(true, X), (true, Y)]
  | .KeyValueExpr Key Value => [(true, Key), (true, Value)]
  | .FuncType Params => Params.toList.map (true, ·)
  | .BadStmt => []
  | .DeclStmt Decl => [(true, Decl)]
  | .EmptyStmt => []
  | .LabeledStmt Label Stmt => [(true, Label), (true, Stmt)]
  | .ExprStmt X => [(true, X)]
  | .IncDecStmt X => [(true, X)]
  | .AssignStmt Lhs Rhs => Lhs.map (false, ·) ++ Rhs.map (false, ·)
  | .GoStmt Call => [(true, Call)]
  | .DeferStmt Call => [(true, Call)]
  | .ReturnStmt Results => Results.map (false, ·)
  | .BranchStmt Label => Label.toList.map (true, ·)
  | .BlockStmt Lst => Lst.map (false, ·)
  | .IfStmt Cond Body ElsIf Else =>
      [(true, Cond), (true, Body)] ++ ElsIf.map (false, ·) ++ Else.toList.map (true, ·)
  | .TryStmt Body Except => [(true, Body)] ++ Except.toList.map (true, ·)
  | .ForStmt Cond Body => Cond.toList.map (true, ·) ++ [(true, Body)]
  | .WhileStmt Cond Body => Cond.toList.map (true, ·) ++ [(true, Body)]
  | .ImportSpec Name Path => Name.toList.map (true, ·) ++ [(true, Path)]
  | .ValueSpec Names Typ Values =>
      Names.map (false, ·) ++ Typ.toList.map (true, ·) ++ Values.map (false, ·)
  | .BadDecl => []
  | .GenDecl Specs => Specs.map (true, ·)
  | .FuncDecl Name Typ Body => [(true, Name), (true, Typ)] ++ Body.toList.map (true, ·)
  | .File Name Decls => [(true, Name)] ++ Decls.map (false, ·)
  | .Package Files => Files.map (true, ·)
  | .other _ => []

/-- Walking a list of slots with visitor `w`: a checked slot that returns an error
ends the run with that error, the result of an unchecked slot is dropped. -/
def runSlots (w : V) : List (Bool × Node) → σ → Option Err × σ
  | [], s => (none, s)
  | (true, c) :: rest, s => seqErr (Walk Visit w c s) (runSlots w rest)
  | (false, c) :: rest, s => runSlots w rest (Walk Visit w c s).2

end Slots

/-! ## The recorder is transparent -/

/-- The recorder is transparent for the walk of `c`: error and store are those of the
walk without recorder, and the log grows by the trace of the walk. -/
def Erasable {V σ : Type} (Visit : V → Option Node → σ → Option V × Option Err × σ)
    (c : Node) : Prop :=
  ∀ (v : V) (s : σ) (tr : List (Call V)),
    Walk (logged Visit) v c (s, tr)
      = ((Walk Visit v c s).1, ((Walk Visit v c s).2, tr ++ trace Visit v c s))

/-! ## Concrete visitors and trees -/

/-- A visitor that always continues with itself. -/
def contVisit : Unit → Option Node → Unit → Option Unit × Option Err × Unit :=
  fun _ _ _ => (some (), none, ())

/-- A visitor that prunes at every node. -/
def pruneVisit : Unit → Option Node → Unit → Option Unit × Option Err × Unit :=
  fun _ _ _ => (none, none, ())

/-- A visitor that prunes at identifiers and continues with itself elsewhere. -/
def pruneAtIdent : Unit → Option Node → Unit → Option Unit × Option Err × Unit
  | _, some (.Ident _), _ => (none, none, ())
  | _, _, _ => (some (), none, ())

/-- A visitor that reports the error `boom` at the identifier `a` and continues with
itself everywhere else. -/
def failAtA : Unit → Option Node → Unit → Option Unit × Option Err × Unit
  | _, some (.Ident "a"), _ => (none, some "boom", ())
  | _, _, _ => (some (), none, ())

/-- Two visitors: `true` hands every subtree over to `false`, which continues with
itself. -/
def swapVisit : Bool → Option Node → Unit → Option Bool × Option Err × Unit :=
  fun _ _ _ => (some false, none, ())

/-- A predicate that always answers `true` without error. -/
def yesPred : Option Node → Unit → Bool × Option Err × Unit :=
  fun _ _ => (true, none, ())

/-- The expression `x op y`. -/
def exBinary : Node := .BinaryExpr (.Ident "x") (.Ident "y")

/-- A block holding the expression statement `a`. -/
def exBlock1 : Node := .BlockStmt [.ExprStmt (.Ident "a")]

/-- A block holding the expression statements `a` and `b`. -/
def exBlock2 : Node := .BlockStmt [.ExprStmt (.Ident "a"), .ExprStmt (.Ident "b")]

/-! ## Further predicates, visitors and trees -/

/-- A trace in which, at every point, the close notifications made so far are at most
as many as the calls on a node that returned a continuation and no error. -/
def Balanced {V : Type} (t : List (Call V)) : Prop :=
  ∀ k, (t.take k).countP (fun c => c.arg.isNone)
    ≤ (t.take k).countP (fun c => c.arg.isSome && c.w.isSome && c.err.isNone)

/-- A predicate that always answers `false` without error. -/
def noPred : Option Node → Unit → Bool × Option Err × Unit :=
  fun _ _ => (false, none, ())

/-- A visitor that continues with itself at every node and reports the error `late`
at every close notification. -/
def failAtClose : Unit → Option Node → Unit → Option Unit × Option Err × Unit
  | _, none, _ => (some (), some "late", ())
  | _, some _, _ => (some (), none, ())

/-- The expression `a op b`. -/
def exBinaryAB : Node := .BinaryExpr (.Ident "a") (.Ident "b")

/-- The assignment `x = y` of one identifier to one identifier. -/
def assign (x y : String) : Node := .AssignStmt [.Ident x] [.Ident y]

/-- Scenario A: an `if` without else-if clauses whose condition is a binary
expression over the identifiers `L` and `R`, whose body is a block holding the
assignment `a = b`, and whose else clause is a block holding `c = d`. -/
def scenarioA (L R a b c d : String) : Node :=
  .IfStmt (.BinaryExpr (.Ident L) (.Ident R)) (.BlockStmt [assign a b]) []
    (some (.BlockStmt [assign c d]))

/-- A parameter field: the names `ns`, the type `t`, no tag. -/
def field (ns : List String) (t : String) : Node :=
  .Field (ns.map .Ident) (.Ident t) none

/-- Scenario B: a function declaration named `f` whose type has a parameter list of
three fields and whose body is a block holding one `return` of the results `rs`. -/
def scenarioB (f : String) (ns1 ns2 ns3 : List String) (t1 t2 t3 : String)
    (rs : List String) : Node :=
  .FuncDecl (.Ident f)
    (.FuncType (some (.FieldList [field ns1 t1, field ns2 t2, field ns3 t3])))
    (some (.BlockStmt [.ReturnStmt (rs.map .Ident)]))

/-- The arguments of the calls made for a list of identifiers: each is visited
and closed. -/
def identArgs (xs : List String) : List (Option Node) :=
  xs.flatMap fun x => [some (.Ident x), none]

/-- The arguments of the calls made for a parameter field: the field, its names,
its type, its close notification. -/
def fieldArgs (ns : List String) (t : String) : List (Option Node) :=
  some (field ns t) :: identArgs ns ++ [some (.Ident t), none, none]

/-- Two visitors: `true` hands every subtree over to `false`; both report the error
`boom` at the identifier `a`. -/
def swapFailAtA : Bool → Option Node → Unit → Option Bool × Option Err × Unit
  | _, some (.Ident "a"), _ => (none, some "boom", ())
  | _, _, _ => (some false, none, ())

/-! ## Lemmas -/

section Lemmas

variable {V σ : Type} (Visit : V → Option Node → σ → Option V × Option Err × σ)

theorem sizeOf_lt_of_mem_children {c n : Node} (hc : c ∈ children n) : sizeOf c < sizeOf n := by
  cases n <;> simp only [children, List.mem_append, List.mem_cons, List.mem_singleton,
    List.not_mem_nil, Option.mem_toList, Option.mem_def, or_false, false_or] at hc
  all_goals try casesm* _ ∨ _
  all_goals first
    | (have hlt := List.sizeOf_lt_of_mem ‹_ ∈ _›
       simp
       omega)
    | (subst_vars
       simp
       try omega)

/-- Induction along `children`. -/
theorem Node.ind {P : Node → Prop} (h : ∀ n, (∀ c ∈ children n, P c) → P n) (n : Node) : P n := by
  generalize hk : sizeOf n = k
  induction k using Nat.strong_induction_on generalizing n with
  | _ k ih =>
    apply h
    intro c hc
    exact ih (sizeOf c) (hk ▸ sizeOf_lt_of_mem_children hc) c rfl

theorem Node.fold_eq {β : Type} (f : Node → List β → β) (n : Node) :
    Node.fold f n = f n ((children n).map (Node.fold f)) := by
  rw [Node.fold, List.attach_map_coe]

theorem Walk_eq (v : V) (node : Node) (s : σ) :
    Walk Visit v node s
      = enter (Visit v (some node) s) fun w s1 => leave Visit w (walkSwitch Visit w node s1) := by
  cases node <;> rfl

theorem walkIdentList_eq (v : V) (l : List Node) (s : σ) :
    walkIdentList Visit v l s = walkEach Visit v l s := by
  induction l generalizing s with
  | nil => rfl
  | cons x l ih => exact ih _

theorem walkExprList_eq (v : V) (l : List Node) (s : σ) :
    walkExprList Visit v l s = walkEach Visit v l s := by
  induction l generalizing s with
  | nil => rfl
  | cons x l ih => exact ih _

theorem walkStmtList_eq (v : V) (l : List Node) (s : σ) :
    walkStmtList Visit v l s = walkEach Visit v l s := by
  induction l generalizing s with
  | nil => rfl
  | cons x l ih => exact ih _

theorem walkDeclList_eq (v : V) (l : List Node) (s : σ) :
    walkDeclList Visit v l s = walkEach Visit v l s := by
  induction l generalizing s with
  | nil => rfl
  | cons x l ih => exact ih _

theorem seqErr_pure (r : Option Err × σ) : seqErr r (fun s => (none, s)) = r := by
  rcases r with ⟨_ | e, s⟩ <;> rfl

theorem seqErr_assoc (r : Option Err × σ) (k1 k2 : σ → Option Err × σ) :
    seqErr (seqErr r k1) k2 = seqErr r (fun s => seqErr (k1 s) k2) := by
  rcases r with ⟨_ | e, s⟩ <;> rfl

theorem runSlots_append (w : V) (a b : List (Bool × Node)) (s : σ) :
    runSlots Visit w (a ++ b) s = seqErr (runSlots Visit w a s) (runSlots Visit w b) := by
  induction a generalizing s with
  | nil => rfl
  | cons x a ih =>
    rcases x with ⟨_ | _, c⟩
    · exact ih _
    · show seqErr _ (runSlots Visit w (a ++ b)) = seqErr (seqErr _ (runSlots Visit w a)) _
      rw [seqErr_assoc]
      congr 1
      funext s1
      exact ih s1

theorem runSlots_unchecked (w : V) (l : List Node) (s : σ) :
    runSlots Visit w (l.map (false, ·)) s = (none, walkEach Visit w l s) := by
  induction l generalizing s with
  | nil => rfl
  | cons x l ih => simp only [List.map_cons, runSlots, ih]; rfl

theorem runSlots_checked (w : V) (l : List Node) (s : σ) :
    runSlots Visit w (l.map (true, ·)) s = walkLoop Visit w l s := by
  induction l generalizing s with
  | nil => rfl
  | cons x l ih =>
    simp only [List.map_cons, runSlots]
    show _ = seqErr (Walk Visit w x s) (fun s => walkLoop Visit w l s)
    congr 1
    funext s
    exact ih s

theorem runSlots_opt (w : V) (o : Option Node) (s : σ) :
    runSlots Visit w (o.toList.map (true, ·)) s = walkOpt Visit w o s := by
  cases o with
  | none => rfl
  | some x => exact seqErr_pure _

theorem runSlots_one (w : V) (c : Node) (s : σ) :
    runSlots Visit w [(true, c)] s = Walk Visit w c s := seqErr_pure _

theorem seqErr_none (s : σ) (k : σ → Option Err × σ) : seqErr (none, s) k = k s := rfl

theorem seqErr_some (e : Err) (s : σ) (k : σ → Option Err × σ) :
    seqErr (some e, s) k = (some e, s) := rfl

theorem runSlots_nil (w : V) : runSlots Visit w [] = fun s => (none, s) := by
  funext s; rfl

theorem runSlots_cons_true (w : V) (c : Node) (rest : List (Bool × Node)) :
    runSlots Visit w ((true, c) :: rest)
      = fun s => seqErr (Walk Visit w c s) (runSlots Visit w rest) := by
  funext s; rfl

theorem runSlots_append_fun (w : V) (a b : List (Bool × Node)) :
    runSlots Visit w (a ++ b) = fun s => seqErr (runSlots Visit w a s) (runSlots Visit w b) := by
  funext s; exact runSlots_append Visit w a b s

theorem runSlots_unchecked_fun (w : V) (l : List Node) :
    runSlots Visit w (l.map (false, ·)) = fun s => (none, walkEach Visit w l s) := by
  funext s; exact runSlots_unchecked Visit w l s

theorem runSlots_checked_fun (w : V) (l : List Node) :
    runSlots Visit w (l.map (true, ·)) = walkLoop Visit w l := by
  funext s; exact runSlots_checked Visit w l s

theorem runSlots_opt_fun (w : V) (o : Option Node) :
    runSlots Visit w (o.toList.map (true, ·)) = walkOpt Visit w o := by
  funext s; exact runSlots_opt Visit w o s

theorem walkLoop_toList (w : V) (o : Option Node) :
    walkLoop Visit w o.toList = walkOpt Visit w o := by
  rw [← runSlots_checked_fun, runSlots_opt_fun]

theorem walkSwitch_eq (w : V) (node : Node) (s : σ) :
    walkSwitch Visit w node s
      = seqErr (unknownKind node, s) (runSlots Visit w (slots node)) := by
  cases node <;>
    simp only [walkSwitch, slots, unknownKind, seqErr_none, seqErr_some, runSlots_append_fun,
      runSlots_unchecked_fun, runSlots_checked_fun, walkLoop_toList, runSlots_cons_true,
      runSlots_nil, walkIdentList_eq, walkExprList_eq, walkStmtList_eq, walkDeclList_eq,
      seqErr_assoc, seqErr_pure]

theorem slots_children (n : Node) : (slots n).map Prod.snd = children n := by
  cases n <;> simp [slots, children, Function.comp_def]

theorem Walk_eq_slots (v : V) (node : Node) (s : σ) :
    Walk Visit v node s
      = enter (Visit v (some node) s) fun w s1 =>
          leave Visit w (seqErr (unknownKind node, s1) (runSlots Visit w (slots node))) := by
  rw [Walk_eq]
  congr 1
  funext w s1
  rw [walkSwitch_eq]

theorem runSlots_logged (w : V) (sl : List (Bool × Node))
    (h : ∀ c ∈ sl.map Prod.snd, Erasable Visit c) (s : σ) (tr : List (Call V)) :
    runSlots (logged Visit) w sl (s, tr)
      = ((runSlots Visit w sl s).1, ((runSlots Visit w sl s).2,
          tr ++ (runSlots (logged Visit) w sl (s, [])).2.2)) := by
  induction sl generalizing s tr with
  | nil => simp [runSlots]
  | cons x sl ih =>
    have hx : Erasable Visit x.2 := h x.2 (by simp)
    have ih1 := ih (fun c hc => h c (by simp at hc ⊢; exact Or.inr hc))
    rcases x with ⟨_ | _, c⟩
    · simp only [runSlots]
      rw [hx w s tr, hx w s []]
      rw [ih1 _ (tr ++ _), ih1 _ ([] ++ _)]
      simp
    · simp only [runSlots]
      rw [hx w s tr, hx w s []]
      rcases hW : Walk Visit w c s with ⟨_ | e, s2⟩
      · simp only [seqErr]
        rw [ih1 _ (tr ++ _), ih1 _ ([] ++ _)]
        simp
      · simp [seqErr]

theorem Walk_logged (n : Node) : Erasable Visit n := by
  induction n using Node.ind with
  | _ n ih =>
    intro v s tr
    have hs := fun w s tr => runSlots_logged Visit w (slots n) (by rw [slots_children]; exact ih) s tr
    unfold trace
    rw [Walk_eq_slots (logged Visit), Walk_eq_slots (logged Visit), Walk_eq_slots Visit]
    rcases hV : Visit v (some n) s with ⟨_ | w, _ | e, s1⟩ <;> simp [logged, hV, enter]
    rcases hk : unknownKind n with _ | e
    · simp only [seqErr]
      rw [hs w s1 (tr ++ _), hs w s1 [_]]
      rcases hR : runSlots Visit w (slots n) s1 with ⟨_ | e, s2⟩ <;> simp [leave, logged]
    · simp [seqErr, leave]

theorem enter_prune (s : σ) (k : V → σ → Option Err × σ) :
    enter ((none : Option V), (none : Option Err), s) k = (none, s) := rfl

theorem enter_cont (w : V) (s : σ) (k : V → σ → Option Err × σ) :
    enter (some w, (none : Option Err), s) k = k w s := rfl

theorem leave_ok (w : V) (s : σ) :
    leave Visit w (none, s) = ((Visit w none s).2.1, (Visit w none s).2.2) := rfl

theorem walkEach_nil (w : V) (s : σ) : walkEach Visit w [] s = s := rfl

theorem walkEach_cons (w : V) (c : Node) (cs : List Node) (s : σ) :
    walkEach Visit w (c :: cs) s = walkEach Visit w cs (Walk Visit w c s).2 := rfl

/-- The recorder is transparent for `walkEach`. -/
theorem walkEach_logged (w : V) (cs : List Node) (s : σ) (tr : List (Call V)) :
    walkEach (logged Visit) w cs (s, tr)
      = (walkEach Visit w cs s, tr ++ traceEach Visit w cs s) := by
  induction cs generalizing s tr with
  | nil => simp [walkEach, traceEach]
  | cons c cs ih =>
    rw [walkEach_cons, Walk_logged Visit c w s tr, walkEach_cons]
    simp only [traceEach]
    rw [ih]
    simp

/-- Where a run of slots stops: after some number `k` of the slots, all of
them unless a checked slot returned an error. -/
theorem runSlots_stops (w : V) (sl : List (Bool × Node)) (s : σ) :
    ∃ k, k ≤ sl.length ∧
      (runSlots Visit w sl s).2 = walkEach Visit w ((sl.map Prod.snd).take k) s ∧
      ((runSlots Visit w sl s).1 = none ∧ k = sl.length ∨ (runSlots Visit w sl s).1 ≠ none) := by
  induction sl generalizing s with
  | nil => exact ⟨0, le_refl _, rfl, Or.inl ⟨rfl, rfl⟩⟩
  | cons x sl ih =>
    rcases x with ⟨_ | _, c⟩
    · obtain ⟨k, hk, h2, h3⟩ := ih (Walk Visit w c s).2
      refine ⟨k + 1, by simpa using hk, ?_, ?_⟩
      · simpa [runSlots, walkEach_cons] using h2
      · simpa [runSlots] using h3
    · rcases hW : Walk Visit w c s with ⟨_ | e, s2⟩
      · obtain ⟨k, hk, h2, h3⟩ := ih s2
        refine ⟨k + 1, by simpa using hk, ?_, ?_⟩
        · simpa [runSlots, walkEach_cons, hW, seqErr] using h2
        · simpa [runSlots, hW, seqErr] using h3
      · refine ⟨1, by simp, ?_, ?_⟩
        · simp [runSlots, walkEach_cons, hW, seqErr, walkEach_nil]
        · simp [runSlots, hW, seqErr]

/-- A run of slots none of whose walks returns an error walks all of them. -/
theorem runSlots_ok (w : V) (sl : List (Bool × Node))
    (h : ∀ c ∈ sl.map Prod.snd, ∀ s, (Walk Visit w c s).1 = none) (s : σ) :
    runSlots Visit w sl s = (none, walkEach Visit w (sl.map Prod.snd) s) := by
  induction sl generalizing s with
  | nil => rfl
  | cons x sl ih =>
    have hx := h x.2 (by simp)
    have ih1 := ih (fun c hc => h c (by simp at hc ⊢; exact Or.inr hc))
    rcases x with ⟨_ | _, c⟩
    · simpa [runSlots, walkEach_cons] using ih1 _
    · have := hx s
      rcases hW : Walk Visit w c s with ⟨_ | e, s2⟩
      · simpa [runSlots, walkEach_cons, hW, seqErr] using ih1 s2
      · simp [hW] at this

theorem subnodes_eq (n : Node) : subnodes n = n :: (children n).flatMap subnodes := by
  rw [subnodes, Node.fold_eq, List.flatMap_def]
  rfl

theorem refArgs_eq (n : Node) :
    refArgs n = some n :: (children n).flatMap refArgs ++ [none] := by
  rw [refArgs, Node.fold_eq, List.flatMap_def]
  rfl

/-- Walking a list of nodes each of whose walks is a fold of the store update of `v`. -/
theorem walkEach_fold (v : V) (cs : List Node)
    (h : ∀ c ∈ cs, ∀ s, Walk Visit v c s
      = (none, (refArgs c).foldl (fun s a => (Visit v a s).2.2) s)) (s : σ) :
    walkEach Visit v cs s = (cs.flatMap refArgs).foldl (fun s a => (Visit v a s).2.2) s := by
  induction cs generalizing s with
  | nil => rfl
  | cons c cs ih =>
    rw [walkEach_cons, h c (by simp), List.flatMap_cons, List.foldl_append]
    exact ih (fun c hc => h c (by simp [hc])) _

/-- A full walk by a visitor that always returns itself and no error: no error, and
the store is updated call by call along the reference sequence of arguments. -/
theorem Walk_self (v : V)
    (hv : ∀ a s, (Visit v a s).1 = some v ∧ (Visit v a s).2.1 = none)
    (n : Node) (hrec : Recognized n) (s : σ) :
    Walk Visit v n s = (none, (refArgs n).foldl (fun s a => (Visit v a s).2.2) s) := by
  induction hrec generalizing s with
  | mk n hk hc ih =>
    have hV : ∀ a s, Visit v a s = (some v, none, (Visit v a s).2.2) := fun a s =>
      Prod.ext (hv a s).1 (Prod.ext (hv a s).2 rfl)
    rw [Walk_eq_slots, hV (some n) s, enter_cont, hk, seqErr_none,
      runSlots_ok Visit v (slots n) (by
        rw [slots_children]; intro c hc s; rw [ih c hc]), leave_ok, slots_children,
      walkEach_fold Visit v (children n) ih, refArgs_eq]
    simp [List.foldl_append, (hv none _).2]

theorem foldl_logged (v : V) (hv : ∀ a s, (Visit v a s).1 = some v ∧ (Visit v a s).2.1 = none)
    (l : List (Option Node)) (s : σ) (tr : List (Call V)) :
    (l.foldl (fun st a => (logged Visit v a st).2.2) (s, tr)).2
      = tr ++ l.map fun a => ⟨v, a, some v, none⟩ := by
  induction l generalizing s tr with
  | nil => simp
  | cons a l ih =>
    rw [List.foldl_cons]
    have : (logged Visit v a (s, tr)).2.2 = ((Visit v a s).2.2, tr ++ [⟨v, a, some v, none⟩]) := by
      simp only [logged, (hv a s).1, (hv a s).2]
    rw [this, ih]
    simp

theorem foldl_loggedPred (f : Option Node → σ → Bool × Option Err × σ)
    (l : List (Option Node)) (s : σ) (tr : List (Option Node)) :
    (l.foldl (fun st a => (inspectorVisit (loggedPred f) a st).2.2) (s, tr)).2 = tr ++ l := by
  induction l generalizing s tr with
  | nil => simp
  | cons a l ih =>
    rw [List.foldl_cons]
    have : (inspectorVisit (loggedPred f) a (s, tr)).2.2 = ((f a s).2.2, tr ++ [a]) := by
      unfold inspectorVisit loggedPred
      rcases f a s with ⟨_ | _, _ | e, s2⟩ <;> rfl
    rw [this, ih]
    simp

/-- A visitor that never reports an error walks a recognized tree without error. -/
theorem Walk_noerr (hne : ∀ v a s, (Visit v a s).2.1 = none)
    (n : Node) (hrec : Recognized n) (v : V) (s : σ) : (Walk Visit v n s).1 = none := by
  induction hrec generalizing v s with
  | mk n hk hc ih =>
    rw [Walk_eq_slots]
    have h1 := hne v (some n) s
    rcases hV : Visit v (some n) s with ⟨_ | w, oe, s1⟩ <;> rw [hV] at h1 <;> cases h1
    · rfl
    · rw [enter_cont, hk, seqErr_none,
        runSlots_ok Visit w (slots n) (by rw [slots_children]; intro c hc s; exact ih c hc w s),
        leave_ok]
      exact hne w none _

/-- One level of a walk without errors. -/
theorem Walk_bracket (hne : ∀ v a s, (Visit v a s).2.1 = none)
    (n : Node) (hrec : Recognized n) (v : V) (s : σ) :
    Walk Visit v n s
      = enter (Visit v (some n) s) fun w s1 =>
          leave Visit w (none, walkEach Visit w (children n) s1) := by
  rw [Walk_eq_slots]
  congr 1
  funext w s1
  cases hrec with
  | mk _ hk hc =>
    rw [hk, seqErr_none, runSlots_ok Visit w (slots n) (by
      rw [slots_children]; intro c hc1 s; exact Walk_noerr Visit hne c (hc c hc1) w s),
      slots_children]

theorem logged_noerr (hne : ∀ v a s, (Visit v a s).2.1 = none)
    (v : V) (a : Option Node) (st : σ × List (Call V)) : (logged Visit v a st).2.1 = none :=
  hne v a st.1

/-- The trace of one level of a walk without errors. -/
theorem trace_bracket (hne : ∀ v a s, (Visit v a s).2.1 = none)
    (n : Node) (hrec : Recognized n) (v : V) (s : σ) :
    trace Visit v n s
      = ⟨v, some n, (Visit v (some n) s).1, none⟩ ::
          match (Visit v (some n) s).1 with
          | none => []
          | some w =>
              traceEach Visit w (children n) (Visit v (some n) s).2.2
                ++ [⟨w, none, (Visit w none
                      (walkEach Visit w (children n) (Visit v (some n) s).2.2)).1, none⟩] := by
  unfold trace
  rw [Walk_bracket (logged Visit) (logged_noerr Visit hne) n hrec]
  have h1 := hne v (some n) s
  rcases hV : Visit v (some n) s with ⟨_ | w, oe, s1⟩ <;> rw [hV] at h1 <;> cases h1
  · simp [logged, hV, enter]
  · simp only [logged, hV, enter_cont, leave_ok]
    rw [walkEach_logged]
    simp [hne w none]

theorem traceEach_countP (p q : Call V → Bool) (w : V) (cs : List Node)
    (h : ∀ c ∈ cs, ∀ w s, (trace Visit w c s).countP p = (trace Visit w c s).countP q) (s : σ) :
    (traceEach Visit w cs s).countP p = (traceEach Visit w cs s).countP q := by
  induction cs generalizing s with
  | nil => rfl
  | cons c cs ih =>
    simp only [traceEach, List.countP_append]
    rw [h c (by simp), ih (fun c hc => h c (by simp [hc]))]

theorem traceEach_args (w : V) (cs : List Node)
    (h : ∀ c ∈ cs, ∀ w s, (trace Visit w c s).filterMap (·.arg) = subnodes c) (s : σ) :
    (traceEach Visit w cs s).filterMap (·.arg) = cs.flatMap subnodes := by
  induction cs generalizing s with
  | nil => rfl
  | cons c cs ih =>
    simp only [traceEach, List.filterMap_append, List.flatMap_cons]
    rw [h c (by simp), ih (fun c hc => h c (by simp [hc]))]

theorem traceEach_closes (w : V) (cs : List Node)
    (h : ∀ c ∈ cs, ∀ w s,
      (trace Visit w c s).countP (fun c => c.arg.isNone) = (subnodes c).length) (s : σ) :
    (traceEach Visit w cs s).countP (fun c => c.arg.isNone) = (cs.flatMap subnodes).length := by
  induction cs generalizing s with
  | nil => rfl
  | cons c cs ih =>
    simp only [traceEach, List.countP_append, List.flatMap_cons, List.length_append]
    rw [h c (by simp), ih (fun c hc => h c (by simp [hc]))]

theorem countP_isSome_arg (t : List (Call V)) :
    t.countP (fun c => c.arg.isSome) = (t.filterMap (·.arg)).length := by
  induction t with
  | nil => rfl
  | cons c t ih =>
    rcases h : c.arg with _ | n <;> simp [List.countP_cons, List.filterMap_cons, h, ih]

/-- The trace of one level of any walk: the call on the node, then, if the walk
goes on, what the switch and the close notification add. -/
theorem trace_eq (v : V) (n : Node) (s : σ) :
    trace Visit v n s
      = ⟨v, some n, (Visit v (some n) s).1, (Visit v (some n) s).2.1⟩ ::
          match Visit v (some n) s with
          | (some w, none, s1) =>
              (leave (logged Visit) w
                (seqErr (unknownKind n, (s1, [])) (runSlots (logged Visit) w (slots n)))).2.2
          | _ => [] := by
  unfold trace
  rw [Walk_eq_slots]
  rcases hV : Visit v (some n) s with ⟨_ | w, _ | e, s1⟩ <;> simp [logged, hV, enter]
  rcases hk : unknownKind n with _ | e
  · simp only [seqErr]
    rw [runSlots_logged Visit w (slots n) (fun c _ => Walk_logged Visit c) s1 [_]]
    rcases hR : runSlots Visit w (slots n) s1 with ⟨_ | e, s2⟩
    · have h2 := runSlots_logged Visit w (slots n) (fun c _ => Walk_logged Visit c) s1 []
      rw [hR] at h2
      rw [h2]
      simp [leave, logged]
    · have h2 := runSlots_logged Visit w (slots n) (fun c _ => Walk_logged Visit c) s1 []
      rw [hR] at h2
      rw [h2]
      simp [leave]
  · simp [seqErr, leave]

theorem inspector_self {σ : Type} (g : Option Node → σ → Bool × Option Err × σ)
    (hg : ∀ a s, (g a s).1 = true ∧ (g a s).2.1 = none) (a : Option Node) (s : σ) :
    (inspectorVisit g a s).1 = some g ∧ (inspectorVisit g a s).2.1 = none := by
  have h := hg a s
  unfold inspectorVisit
  rcases hga : g a s with ⟨b, oe, s2⟩
  rw [hga] at h
  obtain ⟨rfl, rfl⟩ := h
  exact ⟨rfl, rfl⟩

theorem recognized_leaf (n : Node) (hk : unknownKind n = none) (hc : children n = []) :
    Recognized n :=
  .mk n hk (by rw [hc]; intro c h; cases h)

theorem recognized_exBinary : Recognized exBinary :=
  .mk _ rfl (by
    intro c hc
    simp only [exBinary, children, List.mem_cons, List.mem_singleton, List.not_mem_nil,
      or_false] at hc
    rcases hc with rfl | rfl <;> exact recognized_leaf _ rfl rfl)

/-- The trace of a full walk by a visitor that always returns itself and no error. -/
theorem trace_self (v : V)
    (hv : ∀ a s, (Visit v a s).1 = some v ∧ (Visit v a s).2.1 = none)
    (n : Node) (hrec : Recognized n) (s : σ) :
    trace Visit v n s = refTrace v n := by
  unfold trace
  rw [Walk_self (logged Visit) v (fun a st => ⟨(hv a st.1).1, (hv a st.1).2⟩) n hrec,
    foldl_logged Visit v hv]
  rfl

theorem refTrace_eq (v : V) (n : Node) :
    refTrace v n
      = ⟨v, some n, some v, none⟩ :: (children n).flatMap (refTrace v)
          ++ [⟨v, none, some v, none⟩] := by
  unfold refTrace
  rw [refArgs_eq]
  simp [List.map_flatMap, List.flatMap_def, Function.comp_def]

theorem recognized_exBlock1 : Recognized exBlock1 :=
  .mk _ rfl (by
    intro c hc
    simp only [exBlock1, children, List.mem_singleton] at hc
    subst hc
    refine .mk _ rfl ?_
    intro c hc
    simp only [children, List.mem_singleton] at hc
    subst hc
    exact recognized_leaf _ rfl rfl)

theorem enter_err (ow : Option V) (e : Err) (s : σ) (k : V → σ → Option Err × σ) :
    enter (ow, some e, s) k = (some e, s) := by
  cases ow <;> rfl

theorem walkEach_append (w : V) (a b : List Node) (s : σ) :
    walkEach Visit w (a ++ b) s = walkEach Visit w b (walkEach Visit w a s) := by
  simp [walkEach]

theorem traceEach_append (w : V) (a b : List Node) (s : σ) :
    traceEach Visit w (a ++ b) s
      = traceEach Visit w a s ++ traceEach Visit w b (walkEach Visit w a s) := by
  induction a generalizing s with
  | nil => rfl
  | cons c a ih => simp [traceEach, walkEach_cons, ih]

/-- A run of slots that ends without error has walked all of them. -/
theorem runSlots_of_ok (w : V) (sl : List (Bool × Node)) (s : σ)
    (h : (runSlots Visit w sl s).1 = none) :
    runSlots Visit w sl s = (none, walkEach Visit w (sl.map Prod.snd) s) := by
  obtain ⟨k, -, h2, h3⟩ := runSlots_stops Visit w sl s
  rcases h3 with ⟨-, rfl⟩ | h3
  · rw [← List.length_map sl Prod.snd, List.take_length] at h2
    exact Prod.ext h h2
  · exact absurd h h3

/-- The recorded run of slots that end without error. -/
theorem runSlots_logged_of_ok (w : V) (sl : List (Bool × Node)) (s : σ) (tr : List (Call V))
    (h : (runSlots Visit w sl s).1 = none) :
    runSlots (logged Visit) w sl (s, tr)
      = (none, (walkEach Visit w (sl.map Prod.snd) s,
          tr ++ traceEach Visit w (sl.map Prod.snd) s)) := by
  have hL := runSlots_logged Visit w sl (fun c _ => Walk_logged Visit c) s tr
  have h1 : (runSlots (logged Visit) w sl (s, tr)).1 = none := by rw [hL]; exact h
  rw [runSlots_of_ok (logged Visit) w sl (s, tr) h1, walkEach_logged]

theorem unknownKind_of_slots (n : Node) (pre post : List (Bool × Node)) (x : Bool × Node)
    (h : slots n = pre ++ x :: post) : unknownKind n = none := by
  cases n <;> first | rfl | (simp [slots] at h)

/-- A frame whose checked child walks all return no error: every child is walked by
the continuation, the close notification is delivered and its error is returned. -/
theorem frame_complete (v w : V) (n : Node) (s s1 : σ)
    (hV : Visit v (some n) s = (some w, none, s1)) (hk : unknownKind n = none)
    (hok : (runSlots Visit w (slots n) s1).1 = none) :
    Walk Visit v n s
      = ((Visit w none (walkEach Visit w (children n) s1)).2.1,
         (Visit w none (walkEach Visit w (children n) s1)).2.2) ∧
    trace Visit v n s
      = ⟨v, some n, some w, none⟩ :: traceEach Visit w (children n) s1
          ++ [⟨w, none, (Visit w none (walkEach Visit w (children n) s1)).1,
                (Visit w none (walkEach Visit w (children n) s1)).2.1⟩] := by
  constructor
  · rw [Walk_eq_slots, hV, enter_cont, hk, seqErr_none, runSlots_of_ok Visit w _ _ hok,
      leave_ok, slots_children]
  · rw [trace_eq, hV]
    simp only [hk, seqErr_none]
    rw [runSlots_logged_of_ok Visit w _ _ _ hok, leave_ok, slots_children]
    simp [logged]

/-- A frame in which a checked child walk returns an error: the frame ends there
with that error. -/
theorem frame_checked_error (v w : V) (n : Node) (s s1 s3 : σ) (e : Err)
    (pre post : List (Bool × Node)) (c : Node)
    (hV : Visit v (some n) s = (some w, none, s1))
    (hsl : slots n = pre ++ (true, c) :: post)
    (hpre : (runSlots Visit w pre s1).1 = none)
    (hc : Walk Visit w c (walkEach Visit w (pre.map Prod.snd) s1) = (some e, s3)) :
    Walk Visit v n s = (some e, s3) ∧
    trace Visit v n s
      = ⟨v, some n, some w, none⟩ :: traceEach Visit w (pre.map Prod.snd) s1
          ++ trace Visit w c (walkEach Visit w (pre.map Prod.snd) s1) := by
  have hk := unknownKind_of_slots n pre post _ hsl
  constructor
  · rw [Walk_eq_slots, hV, enter_cont, hk, seqErr_none, hsl, runSlots_append,
      runSlots_of_ok Visit w _ _ hpre, seqErr_none, runSlots_cons_true]
    simp only [hc, seqErr_some]
    rfl
  · rw [trace_eq, hV]
    simp only [hk, seqErr_none]
    rw [hsl, runSlots_append, runSlots_logged_of_ok Visit w _ _ _ hpre, seqErr_none,
      runSlots_cons_true]
    simp only []
    rw [Walk_logged Visit c, hc]
    simp [seqErr_some, leave]

/-- The two ways a frame ends: stopped by an error after some of the children, or
closed after all of them. -/
theorem frame_cases (v w : V) (node : Node) (s s1 : σ)
    (h : Visit v (some node) s = (some w, none, s1)) :
    ∃ k, k ≤ (children node).length ∧
      (((Walk Visit v node s).1 ≠ none ∧
        trace Visit v node s
          = ⟨v, some node, some w, none⟩ :: traceEach Visit w ((children node).take k) s1) ∨
       (k = (children node).length ∧
        Walk Visit v node s
          = ((Visit w none (walkEach Visit w (children node) s1)).2.1,
             (Visit w none (walkEach Visit w (children node) s1)).2.2) ∧
        trace Visit v node s
          = ⟨v, some node, some w, none⟩ :: traceEach Visit w (children node) s1
              ++ [⟨w, none, (Visit w none (walkEach Visit w (children node) s1)).1,
                    (Visit w none (walkEach Visit w (children node) s1)).2.1⟩])) := by
  rcases hk : unknownKind node with _ | e
  · rcases hR : (runSlots Visit w (slots node) s1).1 with _ | e
    · exact ⟨_, le_refl _, Or.inr ⟨rfl, frame_complete Visit v w node s s1 h hk hR⟩⟩
    · obtain ⟨k, hk1, hk2, -⟩ := runSlots_stops (logged Visit) w (slots node) (s1, [])
      have hL := runSlots_logged Visit w (slots node) (fun c _ => Walk_logged Visit c) s1 []
      have hlen : (slots node).length = (children node).length := by
        rw [← slots_children, List.length_map]
      rw [walkEach_logged, slots_children] at hk2
      refine ⟨k, hlen ▸ hk1, Or.inl ⟨?_, ?_⟩⟩
      · rw [Walk_eq_slots, h, enter_cont, hk, seqErr_none]
        rcases hR2 : runSlots Visit w (slots node) s1 with ⟨oe, s2⟩
        rw [hR2] at hR
        simp only at hR
        subst hR
        simp [leave]
      · rw [trace_eq, h]
        simp only [hk, seqErr_none]
        rcases hRL : runSlots (logged Visit) w (slots node) (s1, []) with ⟨oeL, s2L, T⟩
        rw [hRL] at hL hk2
        simp only [Prod.mk.injEq, List.nil_append] at hL hk2
        rw [hR] at hL
        obtain ⟨rfl, -, -⟩ := hL
        obtain ⟨-, rfl⟩ := hk2
        simp [leave]
  · refine ⟨0, Nat.zero_le _, Or.inl ⟨?_, ?_⟩⟩
    · rw [Walk_eq_slots, h, enter_cont, hk]
      simp [seqErr, leave]
    · rw [trace_eq, h]
      simp [hk, seqErr, leave, traceEach]

theorem balanced_nil : Balanced ([] : List (Call V)) := by
  intro k
  simp

theorem balanced_append (a b : List (Call V)) (ha : Balanced a) (hb : Balanced b) :
    Balanced (a ++ b) := by
  intro k
  rw [List.take_append_eq_append_take, List.countP_append, List.countP_append]
  have h1 := ha k
  have h2 := hb (k - a.length)
  omega

theorem balanced_traceEach (w : V) (cs : List Node)
    (h : ∀ c ∈ cs, ∀ w s, Balanced (trace Visit w c s)) (s : σ) :
    Balanced (traceEach Visit w cs s) := by
  induction cs generalizing s with
  | nil => exact balanced_nil
  | cons c cs ih =>
    exact balanced_append _ _ (h c (by simp) w s) (ih (fun c hc => h c (by simp [hc])) _)

/-- A call on a node that is not followed by anything. -/
theorem balanced_single (c0 : Call V) (h0 : c0.arg.isSome = true) : Balanced [c0] := by
  intro k
  rcases k with _ | k
  · simp
  · have : c0.arg.isNone = false := by
      rcases h : c0.arg with _ | n
      · rw [h] at h0; cases h0
      · rfl
    simp [List.countP_cons, this]

/-- A call on a node that returned a continuation, then a balanced trace, then at
most one more call. -/
theorem balanced_frame (c0 : Call V) (T x : List (Call V))
    (h0 : (c0.arg.isSome && c0.w.isSome && c0.err.isNone) = true)
    (hT : Balanced T) (hx : x.length ≤ 1) : Balanced (c0 :: (T ++ x)) := by
  intro k
  rcases k with _ | k
  · simp
  · have hn : c0.arg.isNone = false := by
      rcases h : c0.arg with _ | n
      · rw [h] at h0; cases h0
      · rfl
    rw [List.take_succ_cons, List.countP_cons, List.countP_cons, h0, hn,
      List.take_append_eq_append_take, List.countP_append, List.countP_append]
    have h1 := hT k
    have h2 : (List.take (k - T.length) x).countP (fun c => c.arg.isNone) ≤ 1 := by
      have h3 := List.countP_le_length (fun c : Call V => c.arg.isNone)
        (l := List.take (k - T.length) x)
      have h4 : (List.take (k - T.length) x).length ≤ x.length := by
        rw [List.length_take]
        exact Nat.min_le_right _ _
      omega
    simp only [Bool.false_eq_true, if_false, if_true]
    omega

/-- Every trace of `Walk` is balanced. -/
theorem balanced_trace (n : Node) : ∀ (v : V) (s : σ), Balanced (trace Visit v n s) := by
  induction n using Node.ind with
  | _ n ih =>
    intro v s
    rcases hV : Visit v (some n) s with ⟨ow, oe, s1⟩
    rcases oe with _ | e
    · rcases ow with _ | w
      · rw [trace_eq, hV]
        exact balanced_single _ rfl
      · obtain ⟨k, -, h | h⟩ := frame_cases Visit v w n s s1 hV
        · rw [h.2]
          have := balanced_frame ⟨v, some n, some w, none⟩
            (traceEach Visit w ((children n).take k) s1) [] rfl
            (balanced_traceEach Visit w _
              (fun c hc w s => ih c (List.mem_of_mem_take hc) w s) s1) (by simp)
          simpa using this
        · rw [h.2.2]
          exact balanced_frame ⟨v, some n, some w, none⟩ (traceEach Visit w (children n) s1) _
            rfl (balanced_traceEach Visit w _ (fun c hc w s => ih c hc w s) s1) (by simp)
    · rw [trace_eq, hV]
      rcases ow with _ | w <;> exact balanced_single _ rfl

theorem inspector_prune {τ : Type} (g : Option Node → τ → Bool × Option Err × τ)
    (a : Option Node) (s : τ) (h1 : (g a s).1 = false) (h2 : (g a s).2.1 = none) :
    inspectorVisit g a s = (none, none, (g a s).2.2) := by
  unfold inspectorVisit
  rcases hg : g a s with ⟨b, oe, s2⟩
  rw [hg] at h1 h2
  simp only at h1 h2
  subst h1 h2
  rfl

theorem traceEach_map_arg (w : V) (cs : List Node)
    (h : ∀ c ∈ cs, ∀ w s, (trace Visit w c s).map (·.arg) = refArgs c) (s : σ) :
    (traceEach Visit w cs s).map (·.arg) = cs.flatMap refArgs := by
  induction cs generalizing s with
  | nil => rfl
  | cons c cs ih =>
    simp only [traceEach, List.map_append, List.flatMap_cons]
    rw [h c (by simp), ih (fun c hc => h c (by simp [hc]))]

/-- The arguments of the calls of a full walk by visitors that always continue and
never report an error. -/
theorem trace_args (hne : ∀ v a s, (Visit v a s).2.1 = none)
    (hcont : ∀ v n s, (Visit v (some n) s).1 ≠ none)
    (n : Node) (hrec : Recognized n) (v : V) (s : σ) :
    (trace Visit v n s).map (·.arg) = refArgs n := by
  induction hrec generalizing v s with
  | mk n hk hc ih =>
    rw [trace_bracket Visit hne n (.mk n hk hc), refArgs_eq]
    have h1 := hcont v n s
    rcases hw : (Visit v (some n) s).1 with _ | w
    · exact absurd hw h1
    · simp only [List.map_cons, List.map_append, List.map_nil]
      rw [traceEach_map_arg Visit w (children n) ih]
      rfl

theorem recognized_ident (x : String) : Recognized (.Ident x) :=
  recognized_leaf _ rfl rfl

theorem recognized_idents (xs : List String) : ∀ c ∈ xs.map Node.Ident, Recognized c := by
  intro c hc
  obtain ⟨x, -, rfl⟩ := List.mem_map.1 hc
  exact recognized_ident x

theorem recognized_assign (x y : String) : Recognized (assign x y) :=
  .mk _ rfl (by
    intro c hc
    simp only [assign, children, List.mem_append, List.mem_singleton] at hc
    rcases hc with rfl | rfl <;> exact recognized_ident _)

theorem recognized_block1 (n : Node) (h : Recognized n) : Recognized (.BlockStmt [n]) :=
  .mk _ rfl (by
    intro c hc
    simp only [children, List.mem_singleton] at hc
    subst hc
    exact h)

theorem recognized_scenarioA (L R a b c d : String) : Recognized (scenarioA L R a b c d) :=
  .mk _ rfl (by
    intro x hx
    simp only [scenarioA, children, Option.toList, List.mem_append, List.mem_cons,
      List.mem_singleton, List.not_mem_nil, or_false] at hx
    rcases hx with (rfl | rfl) | rfl
    · refine .mk _ rfl ?_
      intro y hy
      simp only [children, List.mem_cons, List.mem_singleton, List.not_mem_nil,
        or_false] at hy
      rcases hy with rfl | rfl <;> exact recognized_ident _
    · exact recognized_block1 _ (recognized_assign a b)
    · exact recognized_block1 _ (recognized_assign c d))

theorem recognized_field (ns : List String) (t : String) : Recognized (field ns t) :=
  .mk _ rfl (by
    intro x hx
    simp only [field, children, Option.toList, List.append_nil, List.mem_append,
      List.mem_singleton] at hx
    rcases hx with hx | rfl
    · exact recognized_idents ns x hx
    · exact recognized_ident t)

theorem recognized_scenarioB (f : String) (ns1 ns2 ns3 : List String) (t1 t2 t3 : String)
    (rs : List String) : Recognized (scenarioB f ns1 ns2 ns3 t1 t2 t3 rs) :=
  .mk _ rfl (by
    intro x hx
    simp only [scenarioB, children, Option.toList, List.mem_append, List.mem_cons,
      List.mem_singleton, List.not_mem_nil, or_false] at hx
    rcases hx with (rfl | rfl) | rfl
    · exact recognized_ident f
    · refine .mk _ rfl ?_
      intro y hy
      simp only [children, Option.toList, List.mem_singleton] at hy
      subst hy
      refine .mk _ rfl ?_
      intro z hz
      simp only [children, List.mem_cons, List.mem_singleton, List.not_mem_nil,
        or_false] at hz
      rcases hz with rfl | rfl | rfl <;> exact recognized_field _ _
    · exact recognized_block1 _ (.mk _ rfl (recognized_idents rs)))

theorem refArgs_ident (x : String) : refArgs (.Ident x) = [some (.Ident x), none] := by
  rw [refArgs_eq]
  rfl

theorem refArgs_idents (xs : List String) :
    (xs.map Node.Ident).flatMap refArgs = identArgs xs := by
  induction xs with
  | nil => rfl
  | cons x xs ih =>
    rw [List.map_cons, List.flatMap_cons, ih, refArgs_ident]
    rfl

theorem refArgs_assign (x y : String) :
    refArgs (assign x y)
      = [some (assign x y), some (.Ident x), none, some (.Ident y), none, none] := by
  rw [refArgs_eq]
  simp [assign, children, refArgs_ident]

theorem refArgs_block1 (n : Node) :
    refArgs (.BlockStmt [n]) = some (.BlockStmt [n]) :: refArgs n ++ [none] := by
  rw [refArgs_eq]
  simp [children]

theorem refArgs_field (ns : List String) (t : String) :
    refArgs (field ns t) = fieldArgs ns t := by
  rw [refArgs_eq]
  simp [field, fieldArgs, children, refArgs_ident, refArgs_idents]

theorem recognized_children {n : Node} (h : Recognized n) : ∀ c ∈ children n, Recognized c := by
  cases h with
  | mk _ _ hc => exact hc

/-- A run of slots in which every walk, started in the store that the walks before
it left, returns no error. -/
theorem runSlots_of_each_ok (w : V) (sl : List (Bool × Node)) (s : σ)
    (h : ∀ p x q, sl.map Prod.snd = p ++ x :: q →
      (Walk Visit w x (walkEach Visit w p s)).1 = none) :
    (runSlots Visit w sl s).1 = none := by
  induction sl generalizing s with
  | nil => rfl
  | cons y sl ih =>
    rcases y with ⟨b, c⟩
    have hc : (Walk Visit w c s).1 = none := h [] c (sl.map Prod.snd) rfl
    have ih1 := ih (Walk Visit w c s).2 (fun p x q hpq => by
      have h2 := h (c :: p) x q (by simp [hpq])
      simpa [walkEach_cons] using h2)
    rcases b with _ | _
    · exact ih1
    · rcases hW : Walk Visit w c s with ⟨_ | e, s2⟩
      · rw [hW] at ih1
        simpa [runSlots, hW, seqErr] using ih1
      · rw [hW] at hc
        cases hc

end Lemmas

/-! ## Properties of `Walk` and `Inspect` -/

section Claims

variable {V σ : Type} (Visit : V → Option Node → σ → Option V × Option Err × σ)

/-- C1: for a tree built of the kinds of the dispatcher table and a visitor `v`
that always returns itself and never reports an error, `Walk` returns no error and
its call trace is the reference trace: the call on the node, then the reference
traces of the children that the table of section 4.2 lists for the kind of the node,
in the listed order, then one close notification `Visit(nil)`. -/
theorem walk_trace_eq_reference (v : V)
    (hv : ∀ a s, (Visit v a s).1 = some v ∧ (Visit v a s).2.1 = none)
    (node : Node) (hrec : Recognized node) (s : σ) :
    (Walk Visit v node s).1 = none ∧
    trace Visit v node s = refTrace v node ∧
    refTrace v node
      = ⟨v, some node, some v, none⟩ :: (children node).flatMap (refTrace v)
          ++ [⟨v, none, some v, none⟩] :=
  ⟨by rw [Walk_self Visit v hv node hrec], trace_self Visit v hv node hrec s,
    refTrace_eq v node⟩

theorem walk_trace_eq_reference_witness :
    (∀ a s, (contVisit () a s).1 = some () ∧ (contVisit () a s).2.1 = none) ∧
    Recognized exBinary ∧
    (Walk contVisit () exBinary ()).1 = none ∧
    trace contVisit () exBinary () = refTrace () exBinary ∧
    refTrace () exBinary
      = ⟨(), some exBinary, some (), none⟩ :: (children exBinary).flatMap (refTrace ())
          ++ [⟨(), none, some (), none⟩] :=
  ⟨fun _ _ => ⟨rfl, rfl⟩, recognized_exBinary,
    walk_trace_eq_reference contVisit () (fun _ _ => ⟨rfl, rfl⟩) exBinary
      recognized_exBinary ()⟩

/-- C2: for a tree built of recognized kinds and visitors that always continue and
never report an error, the nodes on which `Walk` calls `Visit` are, call by call, the
nodes of the tree in pre-order (so every node is visited once, none twice and none
skipped), the number of these calls is the number of nodes of the tree, and so is
the number of close notifications. -/
theorem walk_visits_each_node_once
    (hne : ∀ v a s, (Visit v a s).2.1 = none)
    (hcont : ∀ v n s, (Visit v (some n) s).1 ≠ none)
    (node : Node) (hrec : Recognized node) (v : V) (s : σ) :
    (trace Visit v node s).filterMap (·.arg) = subnodes node ∧
    (trace Visit v node s).countP (fun c => c.arg.isSome) = (subnodes node).length ∧
    (trace Visit v node s).countP (fun c => c.arg.isNone) = (subnodes node).length := by
  have key : (trace Visit v node s).filterMap (·.arg) = subnodes node ∧
      (trace Visit v node s).countP (fun c => c.arg.isNone) = (subnodes node).length := by
    induction hrec generalizing v s with
    | mk n hk hc ih =>
      rw [trace_bracket Visit hne n (.mk n hk hc), subnodes_eq]
      have h1 := hcont v n s
      rcases hw : (Visit v (some n) s).1 with _ | w
      · exact absurd hw h1
      · simp only [List.filterMap_cons, List.filterMap_append, List.countP_cons,
          List.countP_append, List.length_cons]
        rw [traceEach_args Visit w (children n) (fun c hc1 w s => (ih c hc1 w s).1),
          traceEach_closes Visit w (children n) (fun c hc1 w s => (ih c hc1 w s).2)]
        simp
  exact ⟨key.1, by rw [countP_isSome_arg, key.1], key.2⟩

theorem walk_visits_each_node_once_witness :
    (∀ v a s, (swapVisit v a s).2.1 = none) ∧
    (∀ v n s, (swapVisit v (some n) s).1 ≠ none) ∧
    Recognized exBinary ∧
    (trace swapVisit true exBinary ()).filterMap (·.arg) = subnodes exBinary ∧
    (trace swapVisit true exBinary ()).countP (fun c => c.arg.isSome)
      = (subnodes exBinary).length ∧
    (trace swapVisit true exBinary ()).countP (fun c => c.arg.isNone)
      = (subnodes exBinary).length :=
  ⟨fun _ _ _ => rfl, fun _ _ _ h => Option.noConfusion h, recognized_exBinary,
    walk_visits_each_node_once swapVisit (fun _ _ _ => rfl)
      (fun _ _ _ h => Option.noConfusion h) exBinary recognized_exBinary true ()⟩

/-- C3: if `Visit(X)` returns a nil continuation and no error, `Walk(v, X)` makes
that one call and no other (no node inside `X` is visited, no close notification
fires) and returns no error. -/
theorem prune_stops_walk (v : V) (X : Node) (s s1 : σ)
    (h : Visit v (some X) s = (none, none, s1)) :
    Walk Visit v X s = (none, s1) ∧ trace Visit v X s = [⟨v, some X, none, none⟩] := by
  refine ⟨by rw [Walk_eq_slots, h, enter_prune], ?_⟩
  rw [trace_eq, h]

theorem prune_stops_walk_witness :
    pruneVisit () (some exBlock1) () = (none, none, ()) ∧
    Walk pruneVisit () exBlock1 () = (none, ()) ∧
    trace pruneVisit () exBlock1 () = [⟨(), some exBlock1, none, none⟩] :=
  ⟨rfl, prune_stops_walk pruneVisit () exBlock1 () () rfl⟩

/-- C4 (the code at the failing input): the visitor `failAtA` reports the error
`boom` at the identifier `a` inside the block `exBlock1`; the statement list helper
drops that error, the close notification of the block is delivered, and the
top-level `Walk` returns no error instead of `boom`. -/
theorem list_helper_drops_error :
    trace failAtA () exBlock1 ()
      = [⟨(), some exBlock1, some (), none⟩,
         ⟨(), some (.ExprStmt (.Ident "a")), some (), none⟩,
         ⟨(), some (.Ident "a"), none, some "boom"⟩,
         ⟨(), none, some (), none⟩] ∧
    Walk failAtA () exBlock1 () = (none, ()) :=
  ⟨rfl, rfl⟩

/-- C5 (the code at the failing input): after the call on the identifier `a` inside
the block `exBlock2` has reported an error, `Walk` goes on: it visits the next
statement of the block and its identifier `b`, closes both, and delivers the close
notification of the block, which had been entered before the error. -/
theorem walk_goes_on_after_error :
    trace failAtA () exBlock2 ()
      = [⟨(), some exBlock2, some (), none⟩,
         ⟨(), some (.ExprStmt (.Ident "a")), some (), none⟩,
         ⟨(), some (.Ident "a"), none, some "boom"⟩,
         ⟨(), some (.ExprStmt (.Ident "b")), some (), none⟩,
         ⟨(), some (.Ident "b"), some (), none⟩,
         ⟨(), none, some (), none⟩,
         ⟨(), none, some (), none⟩,
         ⟨(), none, some (), none⟩] :=
  rfl

/-- C6: for a node of a kind without a case in the switch (its type name is
`typeName`), if `Visit` on it returns a continuation and no error, `Walk` returns
the error `ast.Walk: unexpected node type` followed by the type name, and the trace
is that one call: no close notification is fired. -/
theorem unknown_kind_is_error (v w : V) (typeName : String) (s s1 : σ)
    (h : Visit v (some (.other typeName)) s = (some w, none, s1)) :
    Walk Visit v (.other typeName) s
      = (some ("ast.Walk: unexpected node type " ++ typeName), s1) ∧
    trace Visit v (.other typeName) s = [⟨v, some (.other typeName), some w, none⟩] := by
  refine ⟨by rw [Walk_eq_slots, h, enter_cont]; rfl, ?_⟩
  rw [trace_eq, h]
  rfl

theorem unknown_kind_is_error_witness :
    contVisit () (some (.other "*ast.StarExpr")) () = (some (), none, ()) ∧
    Walk contVisit () (.other "*ast.StarExpr") ()
      = (some ("ast.Walk: unexpected node type " ++ "*ast.StarExpr"), ()) ∧
    trace contVisit () (.other "*ast.StarExpr") ()
      = [⟨(), some (.other "*ast.StarExpr"), some (), none⟩] :=
  ⟨rfl, unknown_kind_is_error contVisit () () "*ast.StarExpr" () () rfl⟩

/-- C7 (counterexample): `Walk` with the always continuing visitor `contVisit` on
the placeholder `BadExpr` does not return an unexpected node type error, whatever
the type name in it. -/
theorem placeholder_is_not_unknown :
    ¬ ∃ typeName, (Walk contVisit () Node.BadExpr ()).1 = some (errUnexpected typeName) := by
  rintro ⟨k, h⟩
  have h2 : (Walk contVisit () Node.BadExpr ()).1 = none := rfl
  rw [h2] at h
  cases h

/-- C7 (as amended): `Walk` with visitors that always continue and never report an
error on a placeholder node (`BadExpr`, `BadStmt`, `BadDecl`) returns no error; the
trace is the call on the node followed by its close notification, delivered to the
continuation. -/
theorem placeholder_walk_closes
    (hne : ∀ v a s, (Visit v a s).2.1 = none)
    (hcont : ∀ v n s, (Visit v (some n) s).1 ≠ none)
    (n : Node) (hn : n = .BadExpr ∨ n = .BadStmt ∨ n = .BadDecl) (v : V) (s : σ) :
    (Walk Visit v n s).1 = none ∧
    ∃ w, (Visit v (some n) s).1 = some w ∧
      trace Visit v n s
        = [⟨v, some n, some w, none⟩,
           ⟨w, none, (Visit w none (Visit v (some n) s).2.2).1, none⟩] := by
  have hrec : Recognized n := by
    rcases hn with rfl | rfl | rfl <;> exact recognized_leaf _ rfl rfl
  have hch : children n = [] := by
    rcases hn with rfl | rfl | rfl <;> rfl
  refine ⟨Walk_noerr Visit hne n hrec v s, ?_⟩
  rw [trace_bracket Visit hne n hrec, hch]
  have h1 := hcont v n s
  rcases hw : (Visit v (some n) s).1 with _ | w
  · exact absurd hw h1
  · exact ⟨w, rfl, by simp [traceEach, walkEach]⟩

theorem placeholder_walk_closes_witness :
    (∀ v a s, (contVisit v a s).2.1 = none) ∧
    (∀ v n s, (contVisit v (some n) s).1 ≠ none) ∧
    (Node.BadStmt = .BadExpr ∨ Node.BadStmt = .BadStmt ∨ Node.BadStmt = .BadDecl) ∧
    (Walk contVisit () .BadStmt ()).1 = none ∧
    ∃ w, (contVisit () (some .BadStmt) ()).1 = some w ∧
      trace contVisit () .BadStmt ()
        = [⟨(), some .BadStmt, some w, none⟩,
           ⟨w, none, (contVisit w none (contVisit () (some .BadStmt) ()).2.2).1, none⟩] :=
  ⟨fun _ _ _ => rfl, fun _ _ _ h => Option.noConfusion h, Or.inr (Or.inl rfl),
    placeholder_walk_closes contVisit (fun _ _ _ => rfl)
      (fun _ _ _ h => Option.noConfusion h) .BadStmt (Or.inr (Or.inl rfl)) () ()⟩

/-- C8 (counterexample): the visitor `true` returns the continuation `false` and no
error on the binary expression `a op b`; the walk of the first operand with `false`
reports `boom`, and the frame ends there: the second operand, a direct child, is
never visited, and no close notification is delivered, to `false` or to anyone. -/
theorem continuation_stops_at_checked_error :
    swapFailAtA true (some exBinaryAB) () = (some false, none, ()) ∧
    children exBinaryAB = [.Ident "a", .Ident "b"] ∧
    trace swapFailAtA true exBinaryAB ()
      = [⟨true, some exBinaryAB, some false, none⟩,
         ⟨false, some (.Ident "a"), none, some "boom"⟩] ∧
    (∀ c ∈ trace swapFailAtA true exBinaryAB (),
      c.arg ≠ some (.Ident "b") ∧ c.arg ≠ none) := by
  refine ⟨rfl, rfl, rfl, ?_⟩
  intro c hc
  have ht : trace swapFailAtA true exBinaryAB ()
      = [⟨true, some exBinaryAB, some false, none⟩,
         ⟨false, some (.Ident "a"), none, some "boom"⟩] := rfl
  rw [ht] at hc
  simp only [List.mem_cons, List.mem_singleton, List.not_mem_nil, or_false] at hc
  rcases hc with rfl | rfl
  · simp [exBinaryAB]
  · simp

/-- C8 (as amended): for a node of a kind that has a case in the switch, if
`Visit(node)` on `v` returns the continuation `w` and no error, the rest of the frame
is run by `w`. Every walk of a child starts with the call `w.Visit(child)`. If every
child walk returns no error, the trace is the call on `v`, the walks of all direct
children with `w` in order, and the close notification `w.Visit(nil)`, whose error
result `Walk` returns. If the children before a child in a checked slot return no
error and the walk of that child returns `e`, then `Walk` returns `e` and the trace
ends with the walk of that child: no later child is walked and no close
notification is delivered. -/
theorem continuation_runs_the_frame (v w : V) (node : Node) (s s1 : σ)
    (hV : Visit v (some node) s = (some w, none, s1))
    (hk : unknownKind node = none) :
    (∀ c s2, (trace Visit w c s2).head?
        = some ⟨w, some c, (Visit w (some c) s2).1, (Visit w (some c) s2).2.1⟩) ∧
    ((∀ p x q, children node = p ++ x :: q →
        (Walk Visit w x (walkEach Visit w p s1)).1 = none) →
      Walk Visit v node s
        = ((Visit w none (walkEach Visit w (children node) s1)).2.1,
           (Visit w none (walkEach Visit w (children node) s1)).2.2) ∧
      trace Visit v node s
        = ⟨v, some node, some w, none⟩ :: traceEach Visit w (children node) s1
            ++ [⟨w, none, (Visit w none (walkEach Visit w (children node) s1)).1,
                  (Visit w none (walkEach Visit w (children node) s1)).2.1⟩]) ∧
    (∀ (pre post : List (Bool × Node)) (c : Node) (e : Err) (s3 : σ),
      slots node = pre ++ (true, c) :: post →
      (∀ p x q, pre.map Prod.snd = p ++ x :: q →
        (Walk Visit w x (walkEach Visit w p s1)).1 = none) →
      Walk Visit w c (walkEach Visit w (pre.map Prod.snd) s1) = (some e, s3) →
      children node = pre.map Prod.snd ++ c :: post.map Prod.snd ∧
      Walk Visit v node s = (some e, s3) ∧
      trace Visit v node s
        = ⟨v, some node, some w, none⟩ :: traceEach Visit w (pre.map Prod.snd) s1
            ++ trace Visit w c (walkEach Visit w (pre.map Prod.snd) s1)) := by
  refine ⟨fun c s2 => by rw [trace_eq]; rfl, ?_, ?_⟩
  · intro hall
    exact frame_complete Visit v w node s s1 hV hk
      (runSlots_of_each_ok Visit w (slots node) s1 (by rw [slots_children]; exact hall))
  · intro pre post c e s3 hsl hpre hc
    refine ⟨?_, frame_checked_error Visit v w node s s1 s3 e pre post c hV hsl
      (runSlots_of_each_ok Visit w pre s1 hpre) hc⟩
    rw [← slots_children, hsl]
    simp

theorem continuation_runs_the_frame_witness :
    (swapVisit true (some exBinary) () = (some false, none, ()) ∧
     unknownKind exBinary = none ∧
     Walk swapVisit true exBinary ()
       = ((swapVisit false none (walkEach swapVisit false (children exBinary) ())).2.1,
          (swapVisit false none (walkEach swapVisit false (children exBinary) ())).2.2) ∧
     trace swapVisit true exBinary ()
       = ⟨true, some exBinary, some false, none⟩
           :: traceEach swapVisit false (children exBinary) ()
           ++ [⟨false, none,
                 (swapVisit false none (walkEach swapVisit false (children exBinary) ())).1,
                 (swapVisit false none
                   (walkEach swapVisit false (children exBinary) ())).2.1⟩]) ∧
    (swapFailAtA true (some exBinaryAB) () = (some false, none, ()) ∧
     unknownKind exBinaryAB = none ∧
     slots exBinaryAB = [] ++ (true, .Ident "a") :: [(true, .Ident "b")] ∧
     Walk swapFailAtA false (.Ident "a")
         (walkEach swapFailAtA false (([] : List (Bool × Node)).map Prod.snd) ())
       = (some "boom", ()) ∧
     children exBinaryAB
       = ([] : List (Bool × Node)).map Prod.snd
           ++ .Ident "a" :: [((true, .Ident "b") : Bool × Node)].map Prod.snd ∧
     Walk swapFailAtA true exBinaryAB () = (some "boom", ()) ∧
     trace swapFailAtA true exBinaryAB ()
       = ⟨true, some exBinaryAB, some false, none⟩
           :: traceEach swapFailAtA false (([] : List (Bool × Node)).map Prod.snd) ()
           ++ trace swapFailAtA false (.Ident "a")
               (walkEach swapFailAtA false (([] : List (Bool × Node)).map Prod.snd) ())) :=
  ⟨⟨rfl, rfl,
      (continuation_runs_the_frame swapVisit true false exBinary () () rfl rfl).2.1
        (fun _ x _ h => Walk_noerr swapVisit (fun _ _ _ => rfl) x
          (recognized_children recognized_exBinary x (by rw [h]; simp)) false _)⟩,
    ⟨rfl, rfl, rfl, rfl,
      (continuation_runs_the_frame swapFailAtA true false exBinaryAB () () rfl rfl).2.2
        [] [(true, .Ident "b")] (.Ident "a") "boom" () rfl
        (fun p x q h => by simp at h) rfl⟩⟩

/-- C9: for a tree built of recognized kinds and visitors that never report an
error (they may prune and swap continuations), the number of close notifications
in the trace of `Walk` is the number of calls on a node that returned a
continuation; and the trace is the call on the node, alone if it returned no
continuation, else followed by the traces of the walks of the children, one after
the other, and then by the close notification of the node, delivered to the
continuation: after everything inside the node and before anything that follows
it. -/
theorem close_once_per_continued_node_in_post_order
    (hne : ∀ v a s, (Visit v a s).2.1 = none)
    (node : Node) (hrec : Recognized node) (v : V) (s : σ) :
    (trace Visit v node s).countP (fun c => c.arg.isNone)
      = (trace Visit v node s).countP (fun c => c.arg.isSome && c.w.isSome) ∧
    trace Visit v node s
      = ⟨v, some node, (Visit v (some node) s).1, none⟩ ::
          match (Visit v (some node) s).1 with
          | none => []
          | some w =>
              traceEach Visit w (children node) (Visit v (some node) s).2.2
                ++ [⟨w, none, (Visit w none
                      (walkEach Visit w (children node) (Visit v (some node) s).2.2)).1,
                    none⟩] := by
  refine ⟨?_, trace_bracket Visit hne node hrec v s⟩
  induction hrec generalizing v s with
  | mk n hk hc ih =>
    rw [trace_bracket Visit hne n (.mk n hk hc)]
    rcases hw : (Visit v (some n) s).1 with _ | w
    · simp
    · simp only [List.countP_cons, List.countP_append]
      rw [traceEach_countP Visit _ _ w (children n) (fun c hc1 w s => ih c hc1 w s)]
      simp

theorem close_once_per_continued_node_in_post_order_witness :
    (∀ v a s, (pruneAtIdent v a s).2.1 = none) ∧
    Recognized exBlock1 ∧
    (trace pruneAtIdent () exBlock1 ()).countP (fun c => c.arg.isNone)
      = (trace pruneAtIdent () exBlock1 ()).countP (fun c => c.arg.isSome && c.w.isSome) ∧
    trace pruneAtIdent () exBlock1 ()
      = ⟨(), some exBlock1, (pruneAtIdent () (some exBlock1) ()).1, none⟩ ::
          match (pruneAtIdent () (some exBlock1) ()).1 with
          | none => []
          | some w =>
              traceEach pruneAtIdent w (children exBlock1)
                  (pruneAtIdent () (some exBlock1) ()).2.2
                ++ [⟨w, none, (pruneAtIdent w none
                      (walkEach pruneAtIdent w (children exBlock1)
                        (pruneAtIdent () (some exBlock1) ()).2.2)).1,
                    none⟩] :=
  ⟨fun _ a _ => by rcases a with _ | n <;> [rfl; cases n <;> rfl], recognized_exBlock1,
    close_once_per_continued_node_in_post_order pruneAtIdent
      (fun _ a _ => by rcases a with _ | n <;> [rfl; cases n <;> rfl])
      exBlock1 recognized_exBlock1 () ()⟩

/-- C10: for a tree built of recognized kinds, a predicate `f` that always answers
true without error, and a visitor `v` that always returns itself without error,
`Inspect(node, f)` calls `f` on the sequence of arguments on which `Walk(v, node)`
calls `Visit`, and both return no error. That sequence is the reference sequence
of the tree: the node, then the reference sequences of its children in the order of
the table of section 4.2, then nil for the close notification, so each node is met
in pre-order and a nil argument stands at each close position. -/
theorem inspect_true_eq_walk_self {τ : Type} (f : Option Node → τ → Bool × Option Err × τ)
    (hf : ∀ a s, (f a s).1 = true ∧ (f a s).2.1 = none)
    (v : V) (hv : ∀ a s, (Visit v a s).1 = some v ∧ (Visit v a s).2.1 = none)
    (node : Node) (hrec : Recognized node) (s0 : τ) (s : σ) :
    inspectTrace node f s0 = (trace Visit v node s).map (·.arg) ∧
    (Inspect node f s0).1 = none ∧ (Walk Visit v node s).1 = none ∧
    inspectTrace node f s0 = refArgs node ∧
    (trace Visit v node s).map (·.arg) = refArgs node ∧
    refArgs node = some node :: (children node).flatMap refArgs ++ [none] := by
  have hI : inspectTrace node f s0 = refArgs node := by
    unfold inspectTrace Inspect
    rw [Walk_self inspectorVisit (loggedPred f)
      (inspector_self (loggedPred f) (fun a st => hf a st.1)) node hrec, foldl_loggedPred]
    rfl
  have hW : (trace Visit v node s).map (·.arg) = refArgs node := by
    rw [trace_self Visit v hv node hrec s]
    unfold refTrace
    simp [Function.comp_def]
  refine ⟨by rw [hI, hW], ?_, by rw [Walk_self Visit v hv node hrec], hI, hW,
    refArgs_eq node⟩
  unfold Inspect
  rw [Walk_self inspectorVisit f (inspector_self f hf) node hrec]

theorem inspect_true_eq_walk_self_witness :
    (∀ a s, (yesPred a s).1 = true ∧ (yesPred a s).2.1 = none) ∧
    (∀ a s, (contVisit () a s).1 = some () ∧ (contVisit () a s).2.1 = none) ∧
    Recognized exBinary ∧
    inspectTrace exBinary yesPred () = (trace contVisit () exBinary ()).map (·.arg) ∧
    (Inspect exBinary yesPred ()).1 = none ∧ (Walk contVisit () exBinary ()).1 = none ∧
    inspectTrace exBinary yesPred () = refArgs exBinary ∧
    (trace contVisit () exBinary ()).map (·.arg) = refArgs exBinary ∧
    refArgs exBinary = some exBinary :: (children exBinary).flatMap refArgs ++ [none] :=
  ⟨fun _ _ => ⟨rfl, rfl⟩, fun _ _ => ⟨rfl, rfl⟩, recognized_exBinary,
    inspect_true_eq_walk_self contVisit yesPred (fun _ _ => ⟨rfl, rfl⟩) ()
      (fun _ _ => ⟨rfl, rfl⟩) exBinary recognized_exBinary () ()⟩

/-- C11: for every node and every predicate `f` that always answers false without
error, `Inspect(node, f)` calls `f` once, on the root node: no child is visited, no
close call `f(nil)` is made, and no error is returned. -/
theorem inspect_false_visits_root_only {τ : Type}
    (f : Option Node → τ → Bool × Option Err × τ)
    (hf : ∀ a s, (f a s).1 = false ∧ (f a s).2.1 = none) (node : Node) (s : τ) :
    inspectTrace node f s = [some node] ∧
    Inspect node f s = (none, (f (some node) s).2.2) := by
  constructor
  · unfold inspectTrace Inspect
    rw [Walk_eq_slots, inspector_prune (loggedPred f) (some node) (s, []) (hf _ _).1 (hf _ _).2,
      enter_prune]
    rfl
  · unfold Inspect
    rw [Walk_eq_slots, inspector_prune f (some node) s (hf _ _).1 (hf _ _).2, enter_prune]

theorem inspect_false_visits_root_only_witness :
    (∀ a s, (noPred a s).1 = false ∧ (noPred a s).2.1 = none) ∧
    inspectTrace exBlock1 noPred () = [some exBlock1] ∧
    Inspect exBlock1 noPred () = (none, (noPred (some exBlock1) ()).2.2) :=
  ⟨fun _ _ => ⟨rfl, rfl⟩,
    inspect_false_visits_root_only noPred (fun _ _ => ⟨rfl, rfl⟩) exBlock1 ()⟩

/-- C12: in the tree type only the documented optional fields can be absent, and
`Walk` guards each of them, so a call `Visit(nil)` is only ever a close notification:
for every node, every visitor and every point `k` of the trace, the calls with a nil
argument among the first `k` calls are at most as many as the calls on a node, among
the first `k`, that returned a continuation and no error; and the first call of the
trace is the call on the node itself. -/
theorem close_never_precedes_its_visit (v : V) (node : Node) (s : σ) (k : Nat) :
    ((trace Visit v node s).take k).countP (fun c => c.arg.isNone)
      ≤ ((trace Visit v node s).take k).countP
          (fun c => c.arg.isSome && c.w.isSome && c.err.isNone) ∧
    (trace Visit v node s).head?
      = some ⟨v, some node, (Visit v (some node) s).1, (Visit v (some node) s).2.1⟩ :=
  ⟨balanced_trace Visit node v s k, by rw [trace_eq]; rfl⟩

/-- C13: with visitors that always continue and never report an error, the walk
of a slice expression with an object and a low bound but no high bound is the call
on the slice, the walk of the object, the walk of the low bound, and one close
notification; with neither bound it is the call on the slice, the walk of the
object, and one close notification. -/
theorem slice_walks_present_bounds
    (hne : ∀ v a s, (Visit v a s).2.1 = none)
    (hcont : ∀ v n s, (Visit v (some n) s).1 ≠ none)
    (X low : Node) (hX : Recognized X) (hlow : Recognized low) (v : V) (s : σ) :
    (∃ w, (Visit v (some (.SliceExpr X (some low) none)) s).1 = some w ∧
      trace Visit v (.SliceExpr X (some low) none) s
        = ⟨v, some (.SliceExpr X (some low) none), some w, none⟩ ::
            (trace Visit w X (Visit v (some (.SliceExpr X (some low) none)) s).2.2
              ++ trace Visit w low
                  (Walk Visit w X (Visit v (some (.SliceExpr X (some low) none)) s).2.2).2)
            ++ [⟨w, none, (Visit w none (walkEach Visit w [X, low]
                  (Visit v (some (.SliceExpr X (some low) none)) s).2.2)).1, none⟩]) ∧
    (∃ w, (Visit v (some (.SliceExpr X none none)) s).1 = some w ∧
      trace Visit v (.SliceExpr X none none) s
        = ⟨v, some (.SliceExpr X none none), some w, none⟩ ::
            trace Visit w X (Visit v (some (.SliceExpr X none none)) s).2.2
            ++ [⟨w, none, (Visit w none (walkEach Visit w [X]
                  (Visit v (some (.SliceExpr X none none)) s).2.2)).1, none⟩]) ∧
    (trace Visit v (.SliceExpr X (some low) none) s).map (·.arg)
      = some (.SliceExpr X (some low) none) :: (refArgs X ++ refArgs low) ++ [none] ∧
    (trace Visit v (.SliceExpr X none none) s).map (·.arg)
      = some (.SliceExpr X none none) :: refArgs X ++ [none] := by
  have hr1 : Recognized (.SliceExpr X (some low) none) := .mk _ rfl (by
    intro c hc
    simp only [children, Option.toList, List.append_nil, List.mem_append,
      List.mem_singleton] at hc
    rcases hc with rfl | rfl
    · exact hX
    · exact hlow)
  have hr2 : Recognized (.SliceExpr X none none) := .mk _ rfl (by
    intro c hc
    simp only [children, Option.toList, List.append_nil, List.mem_singleton] at hc
    subst hc
    exact hX)
  refine ⟨?_, ?_, ?_, ?_⟩
  · have h1 := hcont v (.SliceExpr X (some low) none) s
    rcases hw : (Visit v (some (.SliceExpr X (some low) none)) s).1 with _ | w
    · exact absurd hw h1
    · refine ⟨w, rfl, ?_⟩
      rw [trace_bracket Visit hne _ hr1, hw]
      simp [children, traceEach]
  · have h1 := hcont v (.SliceExpr X none none) s
    rcases hw : (Visit v (some (.SliceExpr X none none)) s).1 with _ | w
    · exact absurd hw h1
    · refine ⟨w, rfl, ?_⟩
      rw [trace_bracket Visit hne _ hr2, hw]
      simp [children, traceEach]
  · rw [trace_args Visit hne hcont _ hr1, refArgs_eq]
    simp [children]
  · rw [trace_args Visit hne hcont _ hr2, refArgs_eq]
    simp [children]

theorem slice_walks_present_bounds_witness :
    (∀ v a s, (contVisit v a s).2.1 = none) ∧
    (∀ v n s, (contVisit v (some n) s).1 ≠ none) ∧
    Recognized (.Ident "xs") ∧ Recognized (.Ident "i") ∧
    (trace contVisit () (.SliceExpr (.Ident "xs") (some (.Ident "i")) none) ()).map (·.arg)
      = some (.SliceExpr (.Ident "xs") (some (.Ident "i")) none)
          :: (refArgs (.Ident "xs") ++ refArgs (.Ident "i")) ++ [none] ∧
    (trace contVisit () (.SliceExpr (.Ident "xs") none none) ()).map (·.arg)
      = some (.SliceExpr (.Ident "xs") none none) :: refArgs (.Ident "xs") ++ [none] :=
  ⟨fun _ _ _ => rfl, fun _ _ _ h => Option.noConfusion h, recognized_ident "xs",
    recognized_ident "i",
    (slice_walks_present_bounds contVisit (fun _ _ _ => rfl)
      (fun _ _ _ h => Option.noConfusion h) (.Ident "xs") (.Ident "i")
      (recognized_ident "xs") (recognized_ident "i") () ()).2.2⟩

/-- C14: with visitors that always continue and never report an error, the
arguments of the calls of `Walk` on the `if` of scenario A are the listed sequence,
in which the segment of each block ends with its close notification: the events
visit(if), visit(L), visit(R), visit(body), visit(a), visit(b), close(body),
visit(else), visit(c), visit(d), close(else), close(if) occur in this order, and
the close notification of the `if` is the last call. -/
theorem scenarioA_order
    (hne : ∀ v a s, (Visit v a s).2.1 = none)
    (hcont : ∀ v n s, (Visit v (some n) s).1 ≠ none)
    (L R a b c d : String) (v : V) (s : σ) :
    (trace Visit v (scenarioA L R a b c d) s).map (·.arg)
      = [some (scenarioA L R a b c d),
         some (.BinaryExpr (.Ident L) (.Ident R)),
         some (.Ident L), none, some (.Ident R), none, none,
         some (.BlockStmt [assign a b]),
         some (assign a b), some (.Ident a), none, some (.Ident b), none, none,
         none,
         some (.BlockStmt [assign c d]),
         some (assign c d), some (.Ident c), none, some (.Ident d), none, none,
         none,
         none] ∧
    refArgs (.BlockStmt [assign a b])
      = [some (.BlockStmt [assign a b]),
         some (assign a b), some (.Ident a), none, some (.Ident b), none, none,
         none] ∧
    refArgs (.BlockStmt [assign c d])
      = [some (.BlockStmt [assign c d]),
         some (assign c d), some (.Ident c), none, some (.Ident d), none, none,
         none] ∧
    List.Sublist
      [some (scenarioA L R a b c d), some (.Ident L), some (.Ident R),
       some (.BlockStmt [assign a b]), some (.Ident a), some (.Ident b), none,
       some (.BlockStmt [assign c d]), some (.Ident c), some (.Ident d), none,
       none]
      ((trace Visit v (scenarioA L R a b c d) s).map (·.arg)) ∧
    ((trace Visit v (scenarioA L R a b c d) s).map (·.arg)).getLast? = some none := by
  have hA : (trace Visit v (scenarioA L R a b c d) s).map (·.arg)
      = [some (scenarioA L R a b c d),
         some (.BinaryExpr (.Ident L) (.Ident R)),
         some (.Ident L), none, some (.Ident R), none, none,
         some (.BlockStmt [assign a b]),
         some (assign a b), some (.Ident a), none, some (.Ident b), none, none,
         none,
         some (.BlockStmt [assign c d]),
         some (assign c d), some (.Ident c), none, some (.Ident d), none, none,
         none,
         none] := by
    rw [trace_args Visit hne hcont _ (recognized_scenarioA L R a b c d), refArgs_eq]
    have hB : refArgs (.BinaryExpr (.Ident L) (.Ident R))
        = [some (.BinaryExpr (.Ident L) (.Ident R)), some (.Ident L), none,
            some (.Ident R), none, none] := by
      rw [refArgs_eq]
      simp [children, refArgs_ident]
    simp [scenarioA, children, hB, refArgs_block1, refArgs_assign]
  refine ⟨hA, ?_, ?_, ?_, ?_⟩
  · simp [refArgs_block1, refArgs_assign]
  · simp [refArgs_block1, refArgs_assign]
  · rw [hA]
    repeat (first
      | exact List.Sublist.slnil
      | apply List.Sublist.cons₂
      | apply List.Sublist.cons)
  · rw [hA]
    rfl

theorem scenarioA_order_witness :
    (∀ v a s, (contVisit v a s).2.1 = none) ∧
    (∀ v n s, (contVisit v (some n) s).1 ≠ none) ∧
    (trace contVisit () (scenarioA "b" "v" "d" "b" "d" "z") ()).map (·.arg)
      = [some (scenarioA "b" "v" "d" "b" "d" "z"),
         some (.BinaryExpr (.Ident "b") (.Ident "v")),
         some (.Ident "b"), none, some (.Ident "v"), none, none,
         some (.BlockStmt [assign "d" "b"]),
         some (assign "d" "b"), some (.Ident "d"), none, some (.Ident "b"), none, none,
         none,
         some (.BlockStmt [assign "d" "z"]),
         some (assign "d" "z"), some (.Ident "d"), none, some (.Ident "z"), none, none,
         none,
         none] :=
  ⟨fun _ _ _ => rfl, fun _ _ _ h => Option.noConfusion h,
    (scenarioA_order contVisit (fun _ _ _ => rfl) (fun _ _ _ h => Option.noConfusion h)
      "b" "v" "d" "b" "d" "z" () ()).1⟩

/-- C15: with visitors that always continue and never report an error, the
arguments of the calls of `Walk` on the function declaration of scenario B are: the
declaration, its name, the type and its parameter list with the three fields in
sequence (each field, its names, then its type), the body block, the return
statement and its results, and then the close notifications of the return
statement, of the body block and, last of all, of the declaration. -/
theorem scenarioB_order
    (hne : ∀ v a s, (Visit v a s).2.1 = none)
    (hcont : ∀ v n s, (Visit v (some n) s).1 ≠ none)
    (f : String) (ns1 ns2 ns3 : List String) (t1 t2 t3 : String) (rs : List String)
    (v : V) (s : σ) :
    (trace Visit v (scenarioB f ns1 ns2 ns3 t1 t2 t3 rs) s).map (·.arg)
      = [some (scenarioB f ns1 ns2 ns3 t1 t2 t3 rs),
         some (.Ident f), none,
         some (.FuncType (some (.FieldList [field ns1 t1, field ns2 t2, field ns3 t3]))),
         some (.FieldList [field ns1 t1, field ns2 t2, field ns3 t3])]
        ++ (fieldArgs ns1 t1 ++ fieldArgs ns2 t2 ++ fieldArgs ns3 t3)
        ++ [none, none,
            some (.BlockStmt [.ReturnStmt (rs.map .Ident)]),
            some (.ReturnStmt (rs.map .Ident))]
        ++ identArgs rs
        ++ [none, none, none] ∧
    ((trace Visit v (scenarioB f ns1 ns2 ns3 t1 t2 t3 rs) s).map (·.arg)).getLast?
      = some none := by
  have hB : (trace Visit v (scenarioB f ns1 ns2 ns3 t1 t2 t3 rs) s).map (·.arg)
      = [some (scenarioB f ns1 ns2 ns3 t1 t2 t3 rs),
         some (.Ident f), none,
         some (.FuncType (some (.FieldList [field ns1 t1, field ns2 t2, field ns3 t3]))),
         some (.FieldList [field ns1 t1, field ns2 t2, field ns3 t3])]
        ++ (fieldArgs ns1 t1 ++ fieldArgs ns2 t2 ++ fieldArgs ns3 t3)
        ++ [none, none,
            some (.BlockStmt [.ReturnStmt (rs.map .Ident)]),
            some (.ReturnStmt (rs.map .Ident))]
        ++ identArgs rs
        ++ [none, none, none] := by
    rw [trace_args Visit hne hcont _ (recognized_scenarioB f ns1 ns2 ns3 t1 t2 t3 rs),
      refArgs_eq]
    have hT : refArgs (.FuncType (some (.FieldList [field ns1 t1, field ns2 t2, field ns3 t3])))
        = [some (.FuncType (some (.FieldList [field ns1 t1, field ns2 t2, field ns3 t3]))),
           some (.FieldList [field ns1 t1, field ns2 t2, field ns3 t3])]
          ++ (fieldArgs ns1 t1 ++ fieldArgs ns2 t2 ++ fieldArgs ns3 t3) ++ [none, none] := by
      rw [refArgs_eq]
      simp only [children, Option.toList, List.flatMap_cons, List.flatMap_nil]
      rw [refArgs_eq]
      simp [children, refArgs_field]
    have hR : refArgs (.ReturnStmt (rs.map .Ident))
        = some (.ReturnStmt (rs.map .Ident)) :: identArgs rs ++ [none] := by
      rw [refArgs_eq]
      simp [children, refArgs_idents]
    simp [scenarioB, children, hT, hR, refArgs_block1, refArgs_ident]
  refine ⟨hB, ?_⟩
  rw [hB, List.getLast?_append]
  rfl

theorem scenarioB_order_witness :
    (∀ v a s, (contVisit v a s).2.1 = none) ∧
    (∀ v n s, (contVisit v (some n) s).1 ≠ none) ∧
    (trace contVisit () (scenarioB "a" ["b"] ["v"] ["g"] "t" "t" "t" ["d"]) ()).map (·.arg)
      = [some (scenarioB "a" ["b"] ["v"] ["g"] "t" "t" "t" ["d"]),
         some (.Ident "a"), none,
         some (.FuncType (some (.FieldList [field ["b"] "t", field ["v"] "t", field ["g"] "t"]))),
         some (.FieldList [field ["b"] "t", field ["v"] "t", field ["g"] "t"])]
        ++ (fieldArgs ["b"] "t" ++ fieldArgs ["v"] "t" ++ fieldArgs ["g"] "t")
        ++ [none, none,
            some (.BlockStmt [.ReturnStmt (["d"].map .Ident)]),
            some (.ReturnStmt (["d"].map .Ident))]
        ++ identArgs ["d"]
        ++ [none, none, none] :=
  ⟨fun _ _ _ => rfl, fun _ _ _ h => Option.noConfusion h,
    (scenarioB_order contVisit (fun _ _ _ => rfl) (fun _ _ _ h => Option.noConfusion h)
      "a" ["b"] ["v"] ["g"] "t" "t" "t" ["d"] () ()).1⟩

/-- C16: a child `c` of a node that is walked by a list helper (an unchecked slot)
does not stop the frame, whatever `Walk` returns for it, an error included: if the
checked children before and after it return no error, the children after `c` are
walked as well, the close notification of the node is delivered, and `Walk` returns
the result of that close notification. -/
theorem list_element_error_is_dropped (v w : V) (node : Node) (s s1 : σ)
    (pre post : List (Bool × Node)) (c : Node)
    (hV : Visit v (some node) s = (some w, none, s1))
    (hsl : slots node = pre ++ (false, c) :: post)
    (hpre : (runSlots Visit w pre s1).1 = none)
    (hpost : (runSlots Visit w post
      (Walk Visit w c (walkEach Visit w (pre.map Prod.snd) s1)).2).1 = none) :
    children node = pre.map Prod.snd ++ c :: post.map Prod.snd ∧
    trace Visit v node s
      = ⟨v, some node, some w, none⟩ ::
          (traceEach Visit w (pre.map Prod.snd) s1
            ++ trace Visit w c (walkEach Visit w (pre.map Prod.snd) s1)
            ++ traceEach Visit w (post.map Prod.snd)
                (Walk Visit w c (walkEach Visit w (pre.map Prod.snd) s1)).2)
          ++ [⟨w, none, (Visit w none (walkEach Visit w (children node) s1)).1,
                (Visit w none (walkEach Visit w (children node) s1)).2.1⟩] ∧
    Walk Visit v node s
      = ((Visit w none (walkEach Visit w (children node) s1)).2.1,
         (Visit w none (walkEach Visit w (children node) s1)).2.2) := by
  have hch : children node = pre.map Prod.snd ++ c :: post.map Prod.snd := by
    rw [← slots_children, hsl]
    simp
  have hok : (runSlots Visit w (slots node) s1).1 = none := by
    rw [hsl, runSlots_append, runSlots_of_ok Visit w _ _ hpre, seqErr_none]
    exact hpost
  obtain ⟨h1, h2⟩ := frame_complete Visit v w node s s1 hV
    (unknownKind_of_slots node pre post _ hsl) hok
  refine ⟨hch, ?_, h1⟩
  rw [h2]
  congr 2
  rw [hch, traceEach_append]
  simp [traceEach, walkEach_cons]

theorem list_element_error_is_dropped_witness :
    failAtA () (some exBlock2) () = (some (), none, ()) ∧
    slots exBlock2 = [] ++ (false, .ExprStmt (.Ident "a")) :: [(false, .ExprStmt (.Ident "b"))] ∧
    (runSlots failAtA () [] ()).1 = none ∧
    (Walk failAtA () (.ExprStmt (.Ident "a"))
      (walkEach failAtA () (([] : List (Bool × Node)).map Prod.snd) ())).1 = some "boom" ∧
    (runSlots failAtA () [(false, .ExprStmt (.Ident "b"))]
      (Walk failAtA () (.ExprStmt (.Ident "a"))
        (walkEach failAtA () (([] : List (Bool × Node)).map Prod.snd) ())).2).1 = none ∧
    Walk failAtA () exBlock2 ()
      = ((failAtA () none (walkEach failAtA () (children exBlock2) ())).2.1,
         (failAtA () none (walkEach failAtA () (children exBlock2) ())).2.2) ∧
    Walk failAtA () exBlock2 () = (none, ()) :=
  ⟨rfl, rfl, rfl, rfl, rfl,
    (list_element_error_is_dropped failAtA () () exBlock2 () () []
      [(false, .ExprStmt (.Ident "b"))] (.ExprStmt (.Ident "a")) rfl rfl rfl rfl).2.2, rfl⟩

/-- C17: if the walk of a child `c` in a checked slot of a node is reached (the
checked children before it returned no error) and returns the error `e`, then `Walk`
of the node returns exactly `e`, and the trace ends with the trace of the walk of
`c`: no later child is visited and no close notification is fired for the node. -/
theorem checked_child_error_is_returned (v w : V) (node : Node) (s s1 s3 : σ) (e : Err)
    (pre post : List (Bool × Node)) (c : Node)
    (hV : Visit v (some node) s = (some w, none, s1))
    (hsl : slots node = pre ++ (true, c) :: post)
    (hpre : (runSlots Visit w pre s1).1 = none)
    (hc : Walk Visit w c (walkEach Visit w (pre.map Prod.snd) s1) = (some e, s3)) :
    children node = pre.map Prod.snd ++ c :: post.map Prod.snd ∧
    Walk Visit v node s = (some e, s3) ∧
    trace Visit v node s
      = ⟨v, some node, some w, none⟩ :: traceEach Visit w (pre.map Prod.snd) s1
          ++ trace Visit w c (walkEach Visit w (pre.map Prod.snd) s1) := by
  refine ⟨?_, frame_checked_error Visit v w node s s1 s3 e pre post c hV hsl hpre hc⟩
  rw [← slots_children, hsl]
  simp

theorem checked_child_error_is_returned_witness :
    failAtA () (some exBinaryAB) () = (some (), none, ()) ∧
    slots exBinaryAB = [] ++ (true, .Ident "a") :: [(true, .Ident "b")] ∧
    (runSlots failAtA () [] ()).1 = none ∧
    Walk failAtA () (.Ident "a") (walkEach failAtA () (([] : List (Bool × Node)).map Prod.snd) ())
      = (some "boom", ()) ∧
    children exBinaryAB
      = ([] : List (Bool × Node)).map Prod.snd
          ++ .Ident "a" :: [((true, .Ident "b") : Bool × Node)].map Prod.snd ∧
    Walk failAtA () exBinaryAB () = (some "boom", ()) ∧
    trace failAtA () exBinaryAB ()
      = ⟨(), some exBinaryAB, some (), none⟩
          :: traceEach failAtA () (([] : List (Bool × Node)).map Prod.snd) ()
          ++ trace failAtA () (.Ident "a")
              (walkEach failAtA () (([] : List (Bool × Node)).map Prod.snd) ()) :=
  ⟨rfl, rfl, rfl, rfl,
    checked_child_error_is_returned failAtA () () exBinaryAB () () () "boom" []
      [(true, .Ident "b")] (.Ident "a") rfl rfl rfl rfl⟩

/-- C18: for a node of a recognized kind, if `Visit(node)` returns the continuation
`w` without error and every checked child walk returns no error, then `Walk` returns
exactly the error result of `w.Visit(nil)`, and that close notification is the last
call of the trace: nothing is called on the continuation it returns. -/
theorem walk_returns_close_result (v w : V) (node : Node) (s s1 : σ)
    (hk : unknownKind node = none)
    (hV : Visit v (some node) s = (some w, none, s1))
    (hok : (runSlots Visit w (slots node) s1).1 = none) :
    Walk Visit v node s
      = ((Visit w none (walkEach Visit w (children node) s1)).2.1,
         (Visit w none (walkEach Visit w (children node) s1)).2.2) ∧
    (trace Visit v node s).getLast?
      = some ⟨w, none, (Visit w none (walkEach Visit w (children node) s1)).1,
          (Visit w none (walkEach Visit w (children node) s1)).2.1⟩ ∧
    trace Visit v node s
      = ⟨v, some node, some w, none⟩ :: traceEach Visit w (children node) s1
          ++ [⟨w, none, (Visit w none (walkEach Visit w (children node) s1)).1,
                (Visit w none (walkEach Visit w (children node) s1)).2.1⟩] := by
  obtain ⟨h1, h2⟩ := frame_complete Visit v w node s s1 hV hk hok
  refine ⟨h1, ?_, h2⟩
  rw [h2]
  exact List.getLast?_concat _

theorem walk_returns_close_result_witness :
    unknownKind (.Ident "x") = none ∧
    failAtClose () (some (.Ident "x")) () = (some (), none, ()) ∧
    (runSlots failAtClose () (slots (.Ident "x")) ()).1 = none ∧
    Walk failAtClose () (.Ident "x") () = (some "late", ()) :=
  ⟨rfl, rfl, rfl,
    (walk_returns_close_result failAtClose () () (.Ident "x") () () rfl rfl rfl).1⟩

/-- C19: for every node, of a recognized kind or not, if `Visit` on the node reports
the error `e`, then `Walk` returns exactly `e` and the trace is that single call. -/
theorem root_error_is_returned (v : V) (ow : Option V) (node : Node) (s s1 : σ) (e : Err)
    (h : Visit v (some node) s = (ow, some e, s1)) :
    Walk Visit v node s = (some e, s1) ∧
    trace Visit v node s = [⟨v, some node, ow, some e⟩] := by
  refine ⟨by rw [Walk_eq_slots, h, enter_err], ?_⟩
  rw [trace_eq, h]
  rcases ow with _ | w <;> rfl

theorem root_error_is_returned_witness :
    failAtA () (some (.Ident "a")) () = (none, some "boom", ()) ∧
    Walk failAtA () (.Ident "a") () = (some "boom", ()) ∧
    trace failAtA () (.Ident "a") () = [⟨(), some (.Ident "a"), none, some "boom"⟩] :=
  ⟨rfl, root_error_is_returned failAtA () none (.Ident "a") () () "boom" rfl⟩

end Claims

end Gonec
